import Mathlib

/-!
Shallow embedding of the KillerSudokuRust solver core (src/src/ks/) and
verification of the specification claims against it.

Modelling conventions:
  - Rust `u64` / `usize` values are embedded as `Nat`.  All bitwise
    operations (`&`, `|`, `^`, `<<`, `>>`) translate to the corresponding
    `Nat` operations; u64 complement `!m` is translated as
    `(2 ^ 64 - 1) ^^^ m`.  All reachable values in the solver stay far
    below `2 ^ 64`, so no wrap-around modelling is required for these
    operations.
  - `usize` subtraction `a - b` panics on underflow in the source's debug
    builds; it is modelled as checked subtraction (`Option`, `none` models
    the panic) where underflow is reachable, and as `Nat` truncated
    subtraction where the surrounding theorem carries a no-underflow
    hypothesis.
  - Rust panics (`panic!`, `assert!`, out-of-fuel unwraps, index errors on
    empty vectors) are modelled as `none` / `Except.error`; `Result::Err`
    is modelled as `Except.error` as well where the two are not
    distinguished by any claim.
  - A board is a `List Nat` of 81 cell masks; reads are `getD i 0`, writes
    are `List.set` (the source's indexing panics out of bounds; theorems
    about boards carry `i < 81` style hypotheses where this matters).
  - Unbounded `loop`/`while` constructs are modelled with an explicit fuel
    parameter that is structurally decreasing; the fuel passed at each use
    site is the bound given by the termination measure of the loop, so the
    out-of-fuel branch is unreachable for the inputs covered by the
    theorems below.
  - The files `cell.rs`/`cage.rs` in the repository snapshot predate
    `puzzle.rs`: `puzzle.rs` calls `Cage::new(cells, sum, uniqueness)`,
    reads `cage.uniqueness`, and expects `Result`-returning reducers, none
    of which exist in the given `cage.rs`/`cell.rs`.  The pure reducers are
    embedded from the given `cage.rs`; the missing newer pieces (the
    `uniqueness` field and the contradiction-reporting wrappers used by
    `puzzle.rs`) are modelled from the spec and are marked as such.
-/

set_option maxRecDepth 100000

namespace KS

/-- util.rs `popcnt64`: bit-twiddling population count of a 64-bit word. -/
def popcnt64 (x : Nat) : Nat :=
  let o1 := (x &&& 0x5555555555555555) + ((x &&& 0xaaaaaaaaaaaaaaaa) >>> 1)
  let o2 := (o1 &&& 0x3333333333333333) + ((o1 &&& 0xcccccccccccccccc) >>> 2)
  let o3 := (o2 &&& 0x0f0f0f0f0f0f0f0f) + ((o2 &&& 0xf0f0f0f0f0f0f0f0) >>> 4)
  let o4 := (o3 &&& 0x00ff00ff00ff00ff) + ((o3 &&& 0xff00ff00ff00ff00) >>> 8)
  let o5 := (o4 &&& 0x0000ffff0000ffff) + ((o4 &&& 0xffff0000ffff0000) >>> 16)
  let o6 := (o5 &&& 0x00000000ffffffff) + ((o5 &&& 0xffffffff00000000) >>> 32)
  o6

/-- Reference population count, by structurally decreasing fuel (64 bits
suffice for every value the solver manipulates). -/
def bitCountAux : Nat → Nat → Nat
  | 0, _ => 0
  | fuel+1, n => if n = 0 then 0 else n % 2 + bitCountAux fuel (n / 2)

/-- Reference population count of a value below `2 ^ 64`. -/
def bitCount (n : Nat) : Nat := bitCountAux 64 n

/-- util.rs `onehot`, inner binary-search loop.  The Rust `while` runs at
most 7 guard checks (`scaling` goes 32, 16, 8, 4, 2, 1, 0), so fuel 7 makes
the out-of-fuel branch coincide with the loop exit. -/
def onehotAux : Nat → Nat → Nat → Nat → Nat
  | 0, _, output, _ => output
  | fuel+1, x, output, scaling =>
    if x >>> output = 1 ∨ scaling = 0 then output
    else onehotAux fuel x (if x >>> (output + scaling) ≠ 0 then output + scaling else output)
      (scaling / 2)

/-- util.rs `onehot`: the bit position when exactly one bit is set. -/
def onehot (x : Nat) : Option Nat :=
  if popcnt64 x = 1 then some (onehotAux 7 x 0 32) else none

/-- cell.rs `Cell::default`: bits 1..9 set (`0x3FE`). -/
def cellDefault : Nat := (1 <<< 10) - 2

/-- cell.rs `Cell::get_solution`. -/
def getSolution (c : Nat) : Option Nat := onehot c

/-- cell.rs `Cell::allows`; `none` models the `panic!("Value out of range")`. -/
def cellAllows (c value : Nat) : Option Bool :=
  if value = 0 ∨ 9 < value then none
  else some (((c >>> value) &&& 1) == 1)

/-- cell.rs `Cell::num_possible_solutions`. -/
def numPossibleSolutions (c : Nat) : Nat := popcnt64 c

/-- cell.rs `Cell::restrict_to`: plain intersection of the domain mask. -/
def restrictTo (c possibleValues : Nat) : Nat := c &&& possibleValues

/-- u64 bitwise complement `!m`, for masks below `2 ^ 64`. -/
def complement64 (m : Nat) : Nat := (2 ^ 64 - 1) ^^^ m

/-- cell.rs `PossibleValues` iterator: ascending positions of the set bits
of a 64-bit mask. -/
def bitsList (m : Nat) : List Nat := (List.range 64).filter (fun i => m.testBit i)

/-- Sum of the set-bit positions of a mask (`PossibleValues::new(m).sum()`). -/
def bitIndexSum (m : Nat) : Nat := (bitsList m).sum

/-- cell.rs `Cell::pairwise_restriction`. -/
def pairwiseRestriction (self other possibleSums : Nat) : Nat :=
  (bitsList self).foldl
    (fun output cellValue =>
      let sums := possibleSums >>> cellValue
      let restricted := restrictTo other (complement64 (1 <<< cellValue))
      if restricted &&& sums = 0 then restrictTo output (complement64 (1 <<< cellValue))
      else output)
    self

/-- combinations.rs `cage_can_have_uniqueness`: all cells share a row or all
share a column (set cardinality via `dedup` length). -/
def cageCanHaveUniqueness (cells : List Nat) : Bool :=
  ((cells.map (fun i => i / 9)).dedup.length == 1) ||
    ((cells.map (fun i => i % 9)).dedup.length == 1)

/-- combinations.rs `get_combinations`, inner `recurse`.  Structural on
`num_cells`.  `Except.error ()` models both the `Err(())` of an infeasible
upper limit and the panics (`assert!(current_value <= sum)`, and the usize
underflow of `9 - (num_cells - 1)` which cannot occur for the cage sizes the
claims quantify over). -/
def gcRecurse : Nat → Nat → Nat → Nat → Except Unit (List Nat)
  | 0, _, _, _ => .error ()
  | 1, sum, currentValue, accum =>
    if currentValue ≤ sum then .ok [accum ||| (1 <<< sum)] else .error ()
  | n+2, sum, currentValue, accum =>
    let numCells := n + 2
    let lowerLimit :=
      let forcedMax := (9 - (numCells - 1)) * (numCells - 1) + numCells * (numCells - 1) / 2
      if forcedMax < sum then min (sum - forcedMax) 9 else 1
    let upperLimitE : Except Unit Nat :=
      let forcedMin := (currentValue - 1) * (numCells - 1) + numCells * (numCells - 1) / 2
      if forcedMin < sum then
        let ceiling := (sum - numCells * (numCells - 1) / 2) / numCells
        .ok (min (min (sum - forcedMin) ceiling) 9)
      else .error ()
    match upperLimitE with
    | .error _ => .error ()
    | .ok upperLimit =>
      let lo := max currentValue lowerLimit
      (List.range' lo (upperLimit + 1 - lo)).foldl
        (fun acc i =>
          match acc with
          | .error e => .error e
          | .ok out =>
            match gcRecurse (n+1) (sum - i) (i + 1) (accum ||| (1 <<< i)) with
            | .error e => .error e
            | .ok r => .ok (out ++ r))
        (.ok [])

/-- combinations.rs `get_combinations`. -/
def get_combinations (numCells sum : Nat) : Except Unit (List Nat) :=
  gcRecurse numCells sum 1 0

/-- combinations.rs `get_combinations_union`: bitwise OR of the combination
masks. -/
def get_combinations_union (numCells sum : Nat) : Except Unit Nat :=
  match get_combinations numCells sum with
  | .error e => .error e
  | .ok masks => .ok (masks.foldl (fun accum x => accum ||| x) 0)

/-! ### Bit-level infrastructure lemmas -/

/-- Unconditional unfolding step for `bitCountAux`. -/
theorem bitCountAux_succ (fuel n : Nat) :
    bitCountAux (fuel + 1) n = n % 2 + bitCountAux fuel (n / 2) := by
  by_cases h : n = 0
  · subst h
    cases fuel <;> simp [bitCountAux]
  · simp [bitCountAux, h]

/-- A submask has at most as many set bits (any fuel). -/
theorem bitCountAux_mono : ∀ (fuel a b : Nat), a &&& b = a →
    bitCountAux fuel a ≤ bitCountAux fuel b := by
  intro fuel
  induction fuel with
  | zero => intro a b _; simp [bitCountAux]
  | succ f ih =>
    intro a b h
    rw [bitCountAux_succ, bitCountAux_succ]
    have hdiv : a / 2 &&& b / 2 = a / 2 := by
      rw [← Nat.and_div_two, h]
    have hmod : a % 2 ≤ b % 2 := by
      have hb := congrArg (fun x => x.testBit 0) h
      simp only [Nat.testBit_land, Nat.testBit_zero] at hb
      rcases Nat.mod_two_eq_zero_or_one a with ha2 | ha2 <;>
        rcases Nat.mod_two_eq_zero_or_one b with hb2 | hb2 <;>
          simp [ha2, hb2] at hb ⊢
    exact Nat.add_le_add hmod (ih _ _ hdiv)

/-- A proper submask of a value below `2 ^ fuel` has strictly fewer set bits. -/
theorem bitCountAux_strict : ∀ (fuel a b : Nat), a &&& b = a → a ≠ b →
    a < 2 ^ fuel → b < 2 ^ fuel → bitCountAux fuel a < bitCountAux fuel b := by
  intro fuel
  induction fuel with
  | zero =>
    intro a b _ hne ha hb
    simp only [pow_zero, Nat.lt_one_iff] at ha hb
    exact absurd (ha.trans hb.symm) hne
  | succ f ih =>
    intro a b h hne ha hb
    rw [bitCountAux_succ, bitCountAux_succ]
    have hdiv : a / 2 &&& b / 2 = a / 2 := by
      rw [← Nat.and_div_two, h]
    have hmod : a % 2 ≤ b % 2 := by
      have hb' := congrArg (fun x => x.testBit 0) h
      simp only [Nat.testBit_land, Nat.testBit_zero] at hb'
      rcases Nat.mod_two_eq_zero_or_one a with ha2 | ha2 <;>
        rcases Nat.mod_two_eq_zero_or_one b with hb2 | hb2 <;>
          simp [ha2, hb2] at hb' ⊢
    have hpow : 2 ^ (f + 1) = 2 ^ f * 2 := pow_succ 2 f
    have hahalf : a / 2 < 2 ^ f := Nat.div_lt_iff_lt_mul (by norm_num) |>.mpr (hpow ▸ ha)
    have hbhalf : b / 2 < 2 ^ f := Nat.div_lt_iff_lt_mul (by norm_num) |>.mpr (hpow ▸ hb)
    by_cases hhalf : a / 2 = b / 2
    · have hmodne : a % 2 ≠ b % 2 := by omega
      have ha0 : a % 2 = 0 := by omega
      have hb1 : b % 2 = 1 := by omega
      rw [ha0, hb1, hhalf]
      omega
    · exact Nat.add_lt_add_of_le_of_lt hmod (ih _ _ hdiv hhalf hahalf hbhalf)

/-- The bit-twiddling `popcnt64` agrees with the reference count on the cell
mask domain (every reachable cell mask is a submask of `0x3FE < 1024`). -/
theorem popcnt64_table :
    ((List.range 1024).all (fun x => popcnt64 x == bitCount x)) = true := by decide

theorem popcnt64_eq_bitCount {x : Nat} (hx : x < 1024) : popcnt64 x = bitCount x := by
  have h := List.all_eq_true.mp popcnt64_table x (List.mem_range.mpr hx)
  simpa using h

/-- `popcnt64` is monotone under submask on the cell mask domain. -/
theorem popcnt64_submask_le {a b : Nat} (h : a &&& b = a) (hb : b < 1024) :
    popcnt64 a ≤ popcnt64 b := by
  have ha : a < 1024 := Nat.lt_of_le_of_lt (h ▸ Nat.and_le_right) hb
  rw [popcnt64_eq_bitCount ha, popcnt64_eq_bitCount hb]
  exact bitCountAux_mono 64 a b h

/-- `popcnt64` is strictly monotone under proper submask on the cell mask
domain. -/
theorem popcnt64_submask_lt {a b : Nat} (h : a &&& b = a) (hne : a ≠ b)
    (hb : b < 1024) : popcnt64 a < popcnt64 b := by
  have ha : a < 1024 := Nat.lt_of_le_of_lt (h ▸ Nat.and_le_right) hb
  rw [popcnt64_eq_bitCount ha, popcnt64_eq_bitCount hb]
  have h1024 : (1024 : Nat) ≤ 2 ^ 64 := by norm_num
  exact bitCountAux_strict 64 a b h hne (ha.trans_le h1024) (hb.trans_le h1024)

/-- Intersecting with a further mask yields a submask. -/
theorem and_submask (a m : Nat) : (a &&& m) &&& a = a &&& m := by
  rw [Nat.and_comm (a &&& m) a, ← Nat.and_assoc, Nat.and_self]

/-! ### Claim C2 (cell restrict) -/

/-- Claim C2: the spec says `restrict(mask)` intersects the domain and fails
with Contradiction exactly when the intersection is empty.  The source's
`Cell::restrict_to` (cell.rs lines 27-31) intersects but has no failure
path at all: restricting the default cell by mask `0` returns a cell whose
mask is `0` (an empty domain handed back normally), and restricting by
`1 <<< 3` does yield the singleton solution `3`.  This theorem evaluates the
code at both inputs of the claim and records that `restrict_to` is total
intersection.  (The caller in puzzle.rs line 244 calls
`.restrict_to(..).unwrap()`, which only typechecks against a
`Result`-returning version, so the spec describes the intended behaviour and
the given cell.rs contradicts its own caller.) -/
theorem claim_C2 :
    (∀ c m, restrictTo c m = c &&& m) ∧
    restrictTo cellDefault 0 = 0 ∧
    getSolution (restrictTo cellDefault (1 <<< 3)) = some 3 :=
  ⟨fun _ _ => rfl, rfl, rfl⟩

/-! ### Claim C10 (Cell::allows) -/

/-- Claim C10: `Cell::allows(value)` panics when `value` is `0` or greater
than `9` (modelled as `none`), and for `value ∈ 1..=9` it is total and
returns `true` exactly when bit `value` of the cell's mask is set. -/
theorem claim_C10 : ∀ c value,
    (cellAllows c value = none ↔ (value = 0 ∨ 9 < value)) ∧
    (1 ≤ value → value ≤ 9 → cellAllows c value = some (c.testBit value)) := by
  intro c v
  constructor
  · unfold cellAllows
    by_cases h : v = 0 ∨ 9 < v <;> simp [h]
  · intro h1 h9
    have h : ¬(v = 0 ∨ 9 < v) := by omega
    unfold cellAllows
    rw [if_neg h]
    congr 1
    have hcomm : (1 : Nat) &&& (c >>> v) = (c >>> v) &&& 1 := Nat.and_comm _ _
    rw [Nat.testBit, hcomm, Nat.and_one_is_mod]
    rcases Nat.mod_two_eq_zero_or_one (c >>> v) with h2 | h2 <;> rw [h2] <;> rfl

/-- Witness for C10 at concrete inputs: `allows` panics at `0`, and on the
cell with mask `8 = {3}` it answers `true` for digit 3 and `false` for
digit 1. -/
theorem claim_C10_witness :
    cellAllows 8 0 = none ∧ cellAllows 8 3 = some true ∧ cellAllows 8 1 = some false := by
  refine ⟨(claim_C10 8 0).1.mpr (Or.inl rfl), ?_, ?_⟩
  · have h := (claim_C10 8 3).2 (by norm_num) (by norm_num)
    simpa using h
  · have h := (claim_C10 8 1).2 (by norm_num) (by norm_num)
    simpa using h

/-! ### Claim C4 (combinations enumerator) -/

/-- Boolean check used for the C4 table: every returned mask has `popcnt`
`k`, is a submask of `0x3FE` (digits 1..9), and its bit positions sum to
`S`. -/
def c4check (k S : Nat) : Bool :=
  match get_combinations k S with
  | .error _ => true
  | .ok masks =>
    masks.all (fun m => (popcnt64 m == k) && ((m &&& 0x3FE) == m) && (bitIndexSum m == S))

/-- Exhaustive check of the combination table over the feasible sums. -/
theorem c4Table :
    ((List.range 10).all (fun k =>
      (List.range 46).all (fun S =>
        if 1 ≤ k ∧ k * (k + 1) / 2 ≤ S ∧ S ≤ k * (19 - k) / 2 then c4check k S
        else true))) = true := by decide

/-- Counterexample to Claim C4 as stated: `(k, S) = (1, 10)` lies in the
claimed domain `1 ≤ k ≤ 9`, `1 ≤ S ≤ 45`, yet the single returned mask is
`1 <<< 10 = 1024`, whose set bit is position 10 — not a subset of the digit
positions `{1..9}` (its intersection with `0x3FE` is empty). -/
theorem claim_C4_counterexample :
    get_combinations 1 10 = .ok [1024] ∧ popcnt64 1024 = 1 ∧
    bitIndexSum 1024 = 10 ∧ 1024 &&& 0x3FE = 0 := by
  refine ⟨rfl, rfl, rfl, rfl⟩

/-- Claim C4, amended: restricted to sums `S` that are achievable as a sum
of `k` distinct digits from `{1..9}` (`k(k+1)/2 ≤ S ≤ k(19-k)/2`; outside
this range the enumerator can emit masks with a bit above position 9, see
the counterexample), every mask returned for `(k, S)` has exactly `k` bits
set, all within positions 1..9, summing to `S`; and the union operation
returns the bitwise OR of the returned list (this last part for every
`(k, S)` whatsoever). -/
theorem claim_C4 (k S : Nat) (hk1 : 1 ≤ k) (hk9 : k ≤ 9)
    (hlo : k * (k + 1) / 2 ≤ S) (hhi : S ≤ k * (19 - k) / 2)
    (masks : List Nat) (hok : get_combinations k S = .ok masks) :
    (∀ m ∈ masks, popcnt64 m = k ∧ m &&& 0x3FE = m ∧ bitIndexSum m = S) ∧
    get_combinations_union k S = .ok (masks.foldl (fun accum x => accum ||| x) 0) := by
  constructor
  · intro m hm
    have hk10 : k < 10 := by omega
    have hS46 : S < 46 := by
      have : k * (19 - k) / 2 ≤ 45 := by interval_cases k <;> omega
      omega
    have h1 := List.all_eq_true.mp c4Table k (List.mem_range.mpr hk10)
    have h2 := List.all_eq_true.mp h1 S (List.mem_range.mpr hS46)
    rw [if_pos ⟨hk1, hlo, hhi⟩] at h2
    unfold c4check at h2
    rw [hok] at h2
    have h3 := List.all_eq_true.mp h2 m hm
    simp only [Bool.and_eq_true, beq_iff_eq] at h3
    exact ⟨h3.1.1, h3.1.2, h3.2⟩
  · unfold get_combinations_union
    rw [hok]

/-- Witness for the amended C4 at `(k, S) = (2, 13)`: the returned masks are
`{4,9}, {5,8}, {6,7}` and each satisfies the three properties; the union is
`{4,...,9} = 1008`. -/
theorem claim_C4_witness :
    get_combinations 2 13 = .ok [528, 288, 192] ∧
    (∀ m ∈ [528, 288, 192], popcnt64 m = 2 ∧ m &&& 0x3FE = m ∧ bitIndexSum m = 13) ∧
    get_combinations_union 2 13 = .ok 1008 := by
  have h := claim_C4 2 13 (by norm_num) (by norm_num) (by norm_num) (by norm_num)
    [528, 288, 192] rfl
  exact ⟨rfl, h.1, by rw [h.2]; rfl⟩

/-! ### Boards and cages

A board is the source's `[Cell; 81]`; reads/writes go through `bget`/`bset`.
Rust's stable `sort`/`sort_by_key` is modelled by stable insertion sort
(`List.insertionSort`), which produces the same list as any stable sort for
the same total `≤`-comparator and evaluates by structural recursion. -/

/-- The board: 81 cell masks. -/
abbrev Board := List Nat

/-- Board read, `board[i]`. -/
def bget (b : Board) (i : Nat) : Nat := b.getD i 0

/-- Board write, `board[i] = v`. -/
def bset (b : Board) (i : Nat) (v : Nat) : Board := b.set i v

/-- cage.rs `Cage`.  The given cage.rs has only `cells` and `sum`;
`uniqueness` is modelled from the spec: puzzle.rs (a later revision) reads
`cage.uniqueness` and passes a third argument to `Cage::new`, and the spec
says a cage is a uniqueness cage when explicitly declared or when all its
cells share a row or a column. -/
structure Cage where
  cells : List Nat
  sum : Nat
  uniqueness : Bool
deriving DecidableEq, Repr

/-- cage.rs `Cage::new` (cells are sorted on construction).  Modelled from
the spec: the `uniqueness` flag is the explicit declaration, automatically
set when all cells share a row or a column (`cage_can_have_uniqueness`). -/
def Cage.new (cells : List Nat) (sum : Nat) (uniq : Bool) : Cage :=
  { cells := cells.insertionSort (· ≤ ·)
    sum := sum
    uniqueness := uniq || cageCanHaveUniqueness cells }

/-- cage.rs `Cage::empty`. -/
def Cage.emptyCage : Cage := { cells := [], sum := 0, uniqueness := false }

/-- cage.rs `Cage::merge`: sort-merge of the cell indices, sum addition.
The `uniqueness` of the result is modelled from the spec ("downgraded to
false if not automatically provable"). -/
def Cage.merge (a other : Cage) : Cage :=
  { cells := (a.cells ++ other.cells).insertionSort (· ≤ ·)
    sum := a.sum + other.sum
    uniqueness := cageCanHaveUniqueness ((a.cells ++ other.cells).insertionSort (· ≤ ·)) }

/-- cage.rs `Cage::get_intersection_and_difference`, three-way sort-merge;
returns `(a ∩ b, a \ b, b \ a)`.  Structural on fuel; the fuel passed at
the use site is `|a| + |b| + 1`, which the merge never exhausts. -/
def gidAux : Nat → List Nat → List Nat → List Nat × List Nat × List Nat
  | 0, a, b => ([], a, b)
  | _+1, [], b => ([], [], b)
  | _+1, a@(_ :: _), [] => ([], a, [])
  | fuel+1, x :: xs, y :: ys =>
    if x = y then
      let r := gidAux fuel xs ys
      (x :: r.1, r.2.1, r.2.2)
    else if x < y then
      let r := gidAux fuel xs (y :: ys)
      (r.1, x :: r.2.1, r.2.2)
    else
      let r := gidAux fuel (x :: xs) ys
      (r.1, r.2.1, y :: r.2.2)

/-- cage.rs `Cage::get_intersection_and_difference`. -/
def Cage.getIntersectionAndDifference (a other : Cage) :
    List Nat × List Nat × List Nat :=
  gidAux (a.cells.length + other.cells.length + 1) a.cells other.cells

/-- cage.rs `Cage::get_remaining_sum`: the cage sum minus the already-solved
digits; `none` models the usize-underflow panic of the debug build. -/
def Cage.getRemainingSum (c : Cage) (b : Board) : Option Nat :=
  c.cells.foldl
    (fun accum cellIndex =>
      match accum with
      | none => none
      | some s =>
        let sol := (getSolution (bget b cellIndex)).getD 0
        if sol ≤ s then some (s - sol) else none)
    (some c.sum)

/-- cage.rs `Cage::get_remaining_numbers`: all ten bits minus the solved
digits of the cage. -/
def Cage.getRemainingNumbers (c : Cage) (b : Board) : Nat :=
  c.cells.foldl
    (fun accum cellIndex =>
      match getSolution (bget b cellIndex) with
      | some solution => accum &&& complement64 (1 <<< solution)
      | none => accum)
    ((1 <<< 10) - 1)

/-- cage.rs `Cage::get_degrees_of_freedom`: sum of the popcounts of the
cage's cells. -/
def Cage.getDegreesOfFreedom (c : Cage) (b : Board) : Nat :=
  (c.cells.map (fun cellIndex => numPossibleSolutions (bget b cellIndex))).sum

/-- Total degrees of freedom of the whole board (the spec's termination
measure: sum over all cells of the popcount of their masks). -/
def totalDOF (b : Board) : Nat := (b.map popcnt64).sum

/-- cage.rs `Cage::restrict_by_uniform_combination`: intersect every member
cell with the union of the combination masks for `(|cells|, sum)`; reports
whether the cage's degrees of freedom decreased.  The given cage.rs passes
the `Result` of `get_combinations_union` straight into `restrict_to` (a type
slip – the later revision unwraps it); the infeasible case is modelled as
`none`. -/
def Cage.restrictByUniformCombination (c : Cage) (b : Board) : Option (Board × Bool) :=
  let initDegreesOfFreedom := c.getDegreesOfFreedom b
  match get_combinations_union c.cells.length c.sum with
  | .error _ => none
  | .ok combinationsUnion =>
    let b' := c.cells.foldl
      (fun bb cellIndex => bset bb cellIndex (restrictTo (bget bb cellIndex) combinationsUnion))
      b
    some (b', c.getDegreesOfFreedom b' < initDegreesOfFreedom)

/-- The per-entry combination step of cage.rs `fold_combinations`:
`(folded_key | (1 << key), folded_value | value)` when the combined value
stays within `max_value_len` bits. -/
def fcCombine (maxValueLen : Nat) (data : List (Nat × Nat)) (i : Nat)
    (fkv : Nat × Nat) : Option (Nat × Nat) :=
  let kv := data.getD i (0, 0)
  let updatedValue := fkv.2 ||| kv.2
  if popcnt64 updatedValue ≤ maxValueLen then
    some (fkv.1 ||| (1 <<< kv.1), updatedValue)
  else none

/-- cage.rs `fold_combinations` (local to `check_for_partitions`): enumerate
`choose`-subsets of the `(key, value)` data whose value-union has popcount
at most `max_value_len`; `none` models the `panic!("Invalid condition")` on
`choose = 0`. -/
def fold_combinations : Nat → Nat → Nat → List (Nat × Nat) → Option (List (Nat × Nat))
  | _, 0, _, _ => none
  | index, 1, maxValueLen, data =>
    some ((data.drop index).filterMap
      (fun kv => if popcnt64 kv.2 ≤ maxValueLen then some (1 <<< kv.1, kv.2) else none))
  | index, choose+2, maxValueLen, data =>
    let hi := data.length - (choose + 2) - 1
    (List.range' index (hi - index)).foldl
      (fun acc i =>
        match acc with
        | none => none
        | some out =>
          match fold_combinations (i + 1) (choose + 1) maxValueLen data with
          | none => none
          | some folded => some (out ++ folded.filterMap (fcCombine maxValueLen data i)))
      (some [])

/-- The `for i in 1..=(len-1)` search of `check_for_partitions`: first `i`
whose `fold_combinations` result is non-empty; outer `none` models a panic
inside `fold_combinations`. -/
def cfpSearch (data : List (Nat × Nat)) : List Nat → Option (Option (Nat × Nat))
  | [] => some none
  | i :: rest =>
    match fold_combinations 0 i i data with
    | none => none
    | some [] => cfpSearch data rest
    | some (kv :: _) => some (some kv)

/-- cage.rs `Cage::check_for_partitions`.  Result: `none` models a panic
(the `assert_eq!(popcnt(cells), popcnt(values))`, a usize underflow of
`self.sum - new_cage_sum`, or a panic inside a callee); `some (b', none)`
means no partition was found; `some (b', some (new, remaining))` is the
partition, with the board restricted along the way. -/
def Cage.checkForPartitions (c : Cage) (b : Board) :
    Option (Board × Option (Cage × Cage)) :=
  let possibleValuesByCell :=
    ((c.cells.map (fun cellIndex => bget b cellIndex)).enum).insertionSort
      (fun x y => popcnt64 x.2 ≤ popcnt64 y.2)
  match cfpSearch possibleValuesByCell (List.range' 1 (c.cells.length - 1)) with
  | none => none
  | some none => some (b, none)
  | some (some (cellsMask, values)) =>
    if popcnt64 cellsMask = popcnt64 values then
      let newCageCells := c.cells.enum.filterMap
        (fun p => if (cellsMask >>> p.1) &&& 1 = 1 then some p.2 else none)
      let b1 := newCageCells.foldl
        (fun bb cell => bset bb cell (restrictTo (bget bb cell) values)) b
      let newCageSum := bitIndexSum values
      let newCage := Cage.new newCageCells newCageSum false
      let remainingCageCells := c.cells.enum.filterMap
        (fun p => if (cellsMask >>> p.1) &&& 1 = 0 then some p.2 else none)
      let b2 := remainingCageCells.foldl
        (fun bb cell => bset bb cell (restrictTo (bget bb cell) (complement64 values))) b1
      if newCageSum ≤ c.sum then
        let remainingCage := Cage.new remainingCageCells (c.sum - newCageSum) false
        match remainingCage.restrictByUniformCombination b2 with
        | none => none
        | some (b3, _) => some (b3, some (newCage, remainingCage))
      else none
    else none

/-- cell.rs/cage.rs pairwise fixed-point loop of `restrict_subset` (two
unsolved cells).  Structural on fuel; each non-fixpoint iteration strictly
shrinks `cellA + cellB`, so the fuel passed at the use site
(`cellA + cellB + 1`) is never exhausted. -/
def pairwiseLoopAux : Nat → Nat → Nat → Nat → Nat × Nat
  | 0, cellA, cellB, _ => (cellA, cellB)
  | fuel+1, cellA, cellB, remainingSum =>
    let newCellA := pairwiseRestriction cellA cellB remainingSum
    let newCellB := pairwiseRestriction cellB cellA remainingSum
    if newCellA = cellA ∧ newCellB = cellB then (newCellA, newCellB)
    else pairwiseLoopAux fuel newCellA newCellB remainingSum

/-- The `loop` of `restrict_subset`, case of exactly two unsolved cells. -/
def pairwiseLoop (cellA cellB remainingSum : Nat) : Nat × Nat :=
  pairwiseLoopAux (cellA + cellB + 1) cellA cellB remainingSum

/-- cage.rs `Cage::restrict_subset`: one unsolved cell is clamped to
`remaining_sum & remaining_numbers`; two unsolved cells are pairwise
restricted to a fixed point; three or more are returned as-is. -/
def restrictSubset (currentCell : Nat) (unsolvedCells : List Nat)
    (remainingSum remainingNumbers : Nat) : List Nat :=
  match unsolvedCells with
  | [] => [restrictTo currentCell (remainingSum &&& remainingNumbers)]
  | [cellB] =>
    let p := pairwiseLoop currentCell cellB remainingSum
    [p.1, p.2]
  | _ => currentCell :: unsolvedCells

/-- The unsolved-cells filter of cage.rs `Cage::restrict`: cells without a
solution whose restriction by the remaining numbers is not a singleton,
paired with that restriction. -/
def unsolvedCellsOf (c : Cage) (b : Board) (remainingNumbers : Nat) : List (Nat × Nat) :=
  c.cells.filterMap
    (fun cellIndex =>
      match getSolution (bget b cellIndex) with
      | some _ => none
      | none =>
        let restricted := restrictTo (bget b cellIndex) remainingNumbers
        if (getSolution restricted).isSome then none else some (cellIndex, restricted))

/-- The tail of cage.rs `Cage::restrict` after the unsolved cells have been
collected and sorted by popcount: run `restrict_subset` and write the
results back; `none` models the `first().unwrap()` panic on an empty list. -/
def restrictWrite (c : Cage) (b : Board) (remainingSum remainingNumbers initialDOF : Nat) :
    List (Nat × Nat) → Option (Board × Bool)
  | [] => none
  | first :: rest =>
    let solvedCells := restrictSubset first.2 (rest.map (fun p => p.2))
      (1 <<< remainingSum) remainingNumbers
    let b' := (((first :: rest).map (fun p => p.1)).zip solvedCells).foldl
      (fun bb iv => bset bb iv.1 iv.2) b
    some (b', c.getDegreesOfFreedom b' < initialDOF)

/-- cage.rs `Cage::restrict` (the pairwise reducer; called
`restrict_by_combination` by puzzle.rs).  `none` models the panics: the
usize underflow inside `get_remaining_sum` and the
`cells_to_solve.first().unwrap()` on an empty unsolved list. -/
def Cage.restrict (c : Cage) (b : Board) : Option (Board × Bool) :=
  match c.getRemainingSum b with
  | none => none
  | some remainingSum =>
    if remainingSum = 0 then some (b, false)
    else
      restrictWrite c b remainingSum (c.getRemainingNumbers b) (c.getDegreesOfFreedom b)
        ((unsolvedCellsOf c b (c.getRemainingNumbers b)).insertionSort
          (fun x y => popcnt64 x.2 ≤ popcnt64 y.2))

/-! ### Submask and board-order infrastructure -/

/-- Submask is transitive. -/
theorem sub_trans {a b c : Nat} (hab : a &&& b = a) (hbc : b &&& c = b) :
    a &&& c = a := by
  calc a &&& c = (a &&& b) &&& c := by rw [hab]
    _ = a &&& (b &&& c) := Nat.and_assoc a b c
    _ = a &&& b := by rw [hbc]
    _ = a := hab

/-- Board read through `getElem?`. -/
theorem bget_eq (b : Board) (i : Nat) : bget b i = (b[i]?).getD 0 := by
  simp [bget, List.getD]

/-- Reading a written board. -/
theorem bget_bset (b : Board) (i j v : Nat) :
    bget (bset b i v) j = if j = i ∧ i < b.length then v else bget b j := by
  rw [bget_eq, bget_eq, bset]
  by_cases hij : j = i
  · subst hij
    by_cases hlen : j < b.length
    · simp [List.getElem?_set_self hlen, hlen]
    · rw [List.set_eq_of_length_le (by omega)]
      simp [hlen]
  · rw [List.getElem?_set_ne (fun h => hij h.symm)]
    simp [hij]

/-- Pointwise submask order on boards: no cell's domain has grown. -/
def boardSub (b' b : Board) : Prop := ∀ i, bget b' i &&& bget b i = bget b' i

theorem boardSub_refl (b : Board) : boardSub b b := fun _ => Nat.and_self _

theorem boardSub_trans {b1 b2 b3 : Board} (h12 : boardSub b1 b2)
    (h23 : boardSub b2 b3) : boardSub b1 b3 :=
  fun i => sub_trans (h12 i) (h23 i)

/-- Writing a submask of the original board preserves `boardSub`. -/
theorem boardSub_bset {b bb : Board} (h : boardSub bb b) {i v : Nat}
    (hv : v &&& bget b i = v) : boardSub (bset bb i v) b := by
  intro j
  rw [bget_bset]
  by_cases hc : j = i ∧ i < bb.length
  · rw [if_pos hc, hc.1]
    exact hv
  · rw [if_neg hc]
    exact h j

/-- A fold of a `boardSub`-preserving step preserves `boardSub`. -/
theorem foldl_preserves {α β : Type} (P : β → Prop) (f : β → α → β)
    (hf : ∀ acc x, P acc → P (f acc x)) :
    ∀ (l : List α) (acc : β), P acc → P (l.foldl f acc) := by
  intro l
  induction l with
  | nil => intro acc h; exact h
  | cons x xs ih => intro acc h; exact ih _ (hf acc x h)

/-- The restrict-write folds of the reducers only shrink the board. -/
theorem boardSub_restrictFold (b : Board) (m : Nat) (l : List Nat) :
    boardSub (l.foldl (fun bb cell => bset bb cell (restrictTo (bget bb cell) m)) b) b := by
  refine foldl_preserves (fun bb => boardSub bb b) _ ?_ l b (boardSub_refl b)
  intro bb cell h
  exact boardSub_bset h (sub_trans (and_submask (bget bb cell) m) (h cell))

/-- `pairwise_restriction` only removes candidates from the cell. -/
theorem pairwiseRestriction_sub (a b s : Nat) :
    pairwiseRestriction a b s &&& a = pairwiseRestriction a b s := by
  unfold pairwiseRestriction
  refine foldl_preserves (fun out => out &&& a = out) _ ?_ (bitsList a) a (Nat.and_self a)
  intro out v h
  dsimp only
  split
  · exact sub_trans (and_submask out _) h
  · exact h

/-- Both components of the pairwise fixed-point loop are submasks of the
inputs. -/
theorem pairwiseLoopAux_sub : ∀ (fuel a b s : Nat),
    (pairwiseLoopAux fuel a b s).1 &&& a = (pairwiseLoopAux fuel a b s).1 ∧
    (pairwiseLoopAux fuel a b s).2 &&& b = (pairwiseLoopAux fuel a b s).2 := by
  intro fuel
  induction fuel with
  | zero => intro a b s; exact ⟨Nat.and_self a, Nat.and_self b⟩
  | succ f ih =>
    intro a b s
    simp only [pairwiseLoopAux]
    split
    · exact ⟨pairwiseRestriction_sub a b s, pairwiseRestriction_sub b a s⟩
    · obtain ⟨h1, h2⟩ := ih (pairwiseRestriction a b s) (pairwiseRestriction b a s) s
      exact ⟨sub_trans h1 (pairwiseRestriction_sub a b s),
             sub_trans h2 (pairwiseRestriction_sub b a s)⟩

/-- `restrict_subset` returns a pointwise submask of its input cells. -/
theorem restrictSubset_forall₂ (currentCell : Nat) (unsolvedCells : List Nat)
    (rs rn : Nat) :
    List.Forall₂ (fun v orig => v &&& orig = v)
      (restrictSubset currentCell unsolvedCells rs rn) (currentCell :: unsolvedCells) := by
  match unsolvedCells with
  | [] =>
    exact List.Forall₂.cons (and_submask currentCell _) List.Forall₂.nil
  | [cellB] =>
    obtain ⟨h1, h2⟩ := pairwiseLoopAux_sub (currentCell + cellB + 1) currentCell cellB rs
    exact List.Forall₂.cons h1 (List.Forall₂.cons h2 List.Forall₂.nil)
  | x :: y :: rest =>
    exact List.forall₂_same.mpr (fun v _ => Nat.and_self v)

/-- Write-back of values that are submasks of the original board preserves
`boardSub`. -/
theorem boardSub_writeFold (b : Board) : ∀ (pairs : List (Nat × Nat)) (bb : Board),
    boardSub bb b → (∀ q ∈ pairs, q.2 &&& bget b q.1 = q.2) →
    boardSub (pairs.foldl (fun bb iv => bset bb iv.1 iv.2) bb) b := by
  intro pairs
  induction pairs with
  | nil => intro bb h _; exact h
  | cons q qs ih =>
    intro bb h hq
    exact ih _ (boardSub_bset h (hq q (List.mem_cons_self q qs)))
      (fun p hp => hq p (List.mem_cons_of_mem q hp))

/-- Zip of the unsolved indices with the restricted values: every written
value is a submask of the original board at its index. -/
theorem zip_values_sub (b : Board) :
    ∀ (sorted : List (Nat × Nat)) (solved : List Nat),
    List.Forall₂ (fun v orig => v &&& orig = v) solved (sorted.map (fun p => p.2)) →
    (∀ p ∈ sorted, p.2 &&& bget b p.1 = p.2) →
    ∀ q ∈ (sorted.map (fun p => p.1)).zip solved, q.2 &&& bget b q.1 = q.2 := by
  intro sorted
  induction sorted with
  | nil => intro solved _ _ q hq; simp at hq
  | cons p ps ih =>
    intro solved hf hp q hq
    cases hf with
    | cons hv hrest =>
      rename_i v vs
      simp only [List.map_cons, List.zip_cons_cons] at hq
      rcases List.mem_cons.mp hq with hq1 | hq2
      · subst hq1
        exact sub_trans hv (hp p (List.mem_cons_self p ps))
      · exact ih vs hrest (fun r hr => hp r (List.mem_cons_of_mem p hr)) q hq2

/-- Reducer 1 never grows a cell domain. -/
theorem restrictByUniformCombination_sub {c : Cage} {b b' : Board} {progress : Bool}
    (h : c.restrictByUniformCombination b = some (b', progress)) : boardSub b' b := by
  simp only [Cage.restrictByUniformCombination] at h
  split at h
  · exact absurd h (by simp)
  · simp only [Option.some.injEq, Prod.mk.injEq] at h
    rw [← h.1]
    exact boardSub_restrictFold b _ c.cells

/-- Every element of the unsolved-cells list of `restrict` pairs an index
with a submask of the board at that index. -/
theorem restrict_unsolved_sub {c : Cage} {b : Board} {rn : Nat} :
    ∀ p ∈ unsolvedCellsOf c b rn, p.2 &&& bget b p.1 = p.2 := by
  intro p hp
  obtain ⟨i, _, hf⟩ := List.mem_filterMap.mp hp
  split at hf
  · exact Option.noConfusion hf
  · simp only [] at hf
    split at hf
    · exact Option.noConfusion hf
    · simp only [Option.some.injEq] at hf
      rw [← hf]
      exact and_submask (bget b i) rn

/-- The write-back stage of `restrict` never grows a cell domain, provided
every pending pair holds a submask of the board at its index. -/
theorem restrictWrite_sub {c : Cage} {b b' : Board} {rs rn idf : Nat} {progress : Bool}
    {sorted : List (Nat × Nat)}
    (hmem : ∀ p ∈ sorted, p.2 &&& bget b p.1 = p.2)
    (h : restrictWrite c b rs rn idf sorted = some (b', progress)) : boardSub b' b := by
  match sorted with
  | [] => exact Option.noConfusion h
  | first :: rest =>
    simp only [restrictWrite, Option.some.injEq, Prod.mk.injEq] at h
    rw [← h.1]
    refine boardSub_writeFold b _ b (boardSub_refl b) ?_
    refine zip_values_sub b _ _ ?_ hmem
    rw [List.map_cons]
    exact restrictSubset_forall₂ first.2 (rest.map (fun p => p.2)) _ _

/-- Reducer 3 (`Cage::restrict`) never grows a cell domain. -/
theorem restrict_sub {c : Cage} {b b' : Board} {progress : Bool}
    (h : c.restrict b = some (b', progress)) : boardSub b' b := by
  simp only [Cage.restrict] at h
  split at h
  · exact Option.noConfusion h
  · split at h
    · simp only [Option.some.injEq, Prod.mk.injEq] at h
      rw [← h.1]
      exact boardSub_refl b
    · refine restrictWrite_sub ?_ h
      intro p hp
      exact restrict_unsolved_sub p ((List.mem_insertionSort _).mp hp)

set_option maxHeartbeats 1000000 in
/-- Reducer 4 (`check_for_partitions`) never grows a cell domain. -/
theorem checkForPartitions_sub {c : Cage} {b b' : Board}
    {res : Option (Cage × Cage)} (h : c.checkForPartitions b = some (b', res)) :
    boardSub b' b := by
  simp only [Cage.checkForPartitions] at h
  split at h
  · exact Option.noConfusion h
  · simp only [Option.some.injEq, Prod.mk.injEq] at h
    rw [← h.1]
    exact boardSub_refl b
  · split at h
    · split at h
      · split at h
        · exact Option.noConfusion h
        · next b3 flag heq3 =>
          simp only [Option.some.injEq, Prod.mk.injEq] at h
          rw [← h.1]
          have h3 := restrictByUniformCombination_sub heq3
          exact boardSub_trans h3
            (boardSub_trans (boardSub_restrictFold _ _ _) (boardSub_restrictFold _ _ _))
      · exact Option.noConfusion h
    · exact Option.noConfusion h

/-! ### Claim C6 (reducer monotonicity) -/

/-- Claim C6: after any reducer returns — `restrict_by_uniform_combination`,
`restrict`, or `check_for_partitions`, applied to any cage on any board —
no cell's domain has grown: every resulting cell mask is a submask of that
cell's mask before the call. -/
theorem claim_C6 : ∀ (c : Cage) (b : Board),
    (∀ b' progress, c.restrictByUniformCombination b = some (b', progress) → boardSub b' b) ∧
    (∀ b' progress, c.restrict b = some (b', progress) → boardSub b' b) ∧
    (∀ b' res, c.checkForPartitions b = some (b', res) → boardSub b' b) :=
  fun _ _ =>
    ⟨fun _ _ h => restrictByUniformCombination_sub h,
     fun _ _ h => restrict_sub h,
     fun _ _ h => checkForPartitions_sub h⟩

/-- Witness for C6: all three reducers applied to the 2-cell cage
`([0,1], sum 3)` on the board `[{1,2}, {1,2}]`, and to the 4-cell partition
example, return concrete boards that are pointwise submasks of the input. -/
theorem claim_C6_witness :
    ((Cage.new [0, 1] 3 true).restrictByUniformCombination [6, 6] = some ([6, 6], false) ∧
      boardSub [6, 6] [6, 6]) ∧
    ((Cage.new [0, 1] 3 true).restrict [6, 6] = some ([6, 6], false) ∧
      boardSub [6, 6] [6, 6]) ∧
    ((Cage.new [0, 1, 2, 3] 10 true).checkForPartitions [6, 6, 1022, 1022] =
        some ([6, 6, 120, 120],
          some (Cage.new [0, 1] 3 false, Cage.new [2, 3] 7 false)) ∧
      boardSub [6, 6, 120, 120] [6, 6, 1022, 1022]) := by
  refine ⟨⟨rfl, ?_⟩, ⟨rfl, ?_⟩, ⟨rfl, ?_⟩⟩
  · exact (claim_C6 (Cage.new [0, 1] 3 true) [6, 6]).1 _ _ rfl
  · exact (claim_C6 (Cage.new [0, 1] 3 true) [6, 6]).2.1 _ _ rfl
  · exact (claim_C6 (Cage.new [0, 1, 2, 3] 10 true) [6, 6, 1022, 1022]).2.2 _ _ rfl

/-! ### Claim C8 (restrict with three or more unsolved cells) -/

/-- Zipping the projections of a pair list recovers the list. -/
theorem zip_fst_snd {α β : Type} : ∀ (l : List (α × β)),
    (l.map (fun p => p.1)).zip (l.map (fun p => p.2)) = l := by
  intro l
  induction l with
  | nil => rfl
  | cons p ps ih => simp [List.zip_cons_cons, ih]

/-- Writing pairs whose values are the remaining-numbers restriction of the
original board leaves every cell either unchanged or so restricted. -/
theorem writeFold_or (b : Board) (rn : Nat) :
    ∀ (pairs : List (Nat × Nat)) (bb : Board),
    (∀ p ∈ pairs, p.2 = restrictTo (bget b p.1) rn) →
    (∀ i, bget bb i = bget b i ∨ bget bb i = restrictTo (bget b i) rn) →
    ∀ i, bget (pairs.foldl (fun bb iv => bset bb iv.1 iv.2) bb) i = bget b i ∨
      bget (pairs.foldl (fun bb iv => bset bb iv.1 iv.2) bb) i = restrictTo (bget b i) rn := by
  intro pairs
  induction pairs with
  | nil => intro bb _ hb i; exact hb i
  | cons q qs ih =>
    intro bb hq hb i
    refine ih _ (fun p hp => hq p (List.mem_cons_of_mem q hp)) ?_ i
    intro j
    rw [bget_bset]
    by_cases hc : j = q.1 ∧ q.1 < bb.length
    · rw [if_pos hc, hc.1]
      exact Or.inr (hq q (List.mem_cons_self q qs))
    · rw [if_neg hc]
      exact hb j

/-- With three or more unsolved pairs, the write-back stage only intersects
cells with the remaining-numbers mask. -/
theorem restrictWrite_or {c : Cage} {b b' : Board} {rs rn idf : Nat} {progress : Bool}
    {sorted : List (Nat × Nat)}
    (hmem : ∀ p ∈ sorted, p.2 = restrictTo (bget b p.1) rn)
    (hlen : 3 ≤ sorted.length)
    (h : restrictWrite c b rs rn idf sorted = some (b', progress)) :
    ∀ i, bget b' i = bget b i ∨ bget b' i = restrictTo (bget b i) rn := by
  match sorted, hlen with
  | first :: x :: y :: t, _ =>
    simp only [restrictWrite, List.map_cons, restrictSubset, List.zip_cons_cons,
      Option.some.injEq, Prod.mk.injEq] at h
    rw [← h.1]
    have hz : ((t.map (fun p => p.1)).zip (t.map (fun p => p.2))) = t := zip_fst_snd t
    rw [hz]
    refine writeFold_or b rn (first :: x :: y :: t) b hmem (fun i => Or.inl rfl)

/-- The unsolved-cells list records exactly the remaining-numbers
restriction of the board at its index. -/
theorem restrict_unsolved_eq {c : Cage} {b : Board} {rn : Nat} :
    ∀ p ∈ unsolvedCellsOf c b rn, p.2 = restrictTo (bget b p.1) rn := by
  intro p hp
  obtain ⟨i, _, hf⟩ := List.mem_filterMap.mp hp
  split at hf
  · exact Option.noConfusion hf
  · simp only [] at hf
    split at hf
    · exact Option.noConfusion hf
    · simp only [Option.some.injEq] at hf
      rw [← hf]

/-- Counterexample to Claim C8 as stated: a 4-cell cage of sum 30 on the
board `[{5}, {4,5,6,9}, {4,5,6,9}, {4,5,6,9}]` has exactly three unsolved
cells after the solved digit 5 is subtracted out, yet `restrict` does not
leave the board unchanged — it writes the remaining-numbers restriction
`{4,6,9}` into cells 1, 2 and 3 (and even reports progress). -/
theorem claim_C8_counterexample :
    (unsolvedCellsOf (Cage.new [0, 1, 2, 3] 30 true) [32, 624, 624, 624]
      ((Cage.new [0, 1, 2, 3] 30 true).getRemainingNumbers [32, 624, 624, 624])).length = 3 ∧
    (Cage.new [0, 1, 2, 3] 30 true).restrict [32, 624, 624, 624] =
      some ([32, 592, 592, 592], true) ∧
    bget [32, 592, 592, 592] 1 ≠ bget [32, 624, 624, 624] 1 := by
  exact ⟨rfl, rfl, by decide⟩

/-- Claim C8, amended: when the cage's `restrict` reducer finds three or
more still-unsolved cells after single-cell solutions are subtracted out,
no pairwise reasoning is applied, but the call is not a frame-preserving
no-op: its only effect is that each cell is either unchanged or intersected
with the cage's remaining-numbers mask (the counterexample shows the second
case does change cells). -/
theorem claim_C8 (c : Cage) (b b' : Board) (progress : Bool)
    (h3 : 3 ≤ (unsolvedCellsOf c b (c.getRemainingNumbers b)).length)
    (h : c.restrict b = some (b', progress)) :
    ∀ i, bget b' i = bget b i ∨
      bget b' i = restrictTo (bget b i) (c.getRemainingNumbers b) := by
  simp only [Cage.restrict] at h
  split at h
  · exact Option.noConfusion h
  · split at h
    · simp only [Option.some.injEq, Prod.mk.injEq] at h
      rw [← h.1]
      exact fun i => Or.inl rfl
    · refine restrictWrite_or ?_ ?_ h
      · intro p hp
        exact restrict_unsolved_eq p ((List.mem_insertionSort _).mp hp)
      · rw [List.length_insertionSort]
        exact h3

/-- Witness for the amended C8 at the counterexample input: cell 0 is
unchanged and cell 1 receives exactly the remaining-numbers restriction. -/
theorem claim_C8_witness :
    (bget [32, 592, 592, 592] 0 = bget [32, 624, 624, 624] 0 ∨
      bget [32, 592, 592, 592] 0 = restrictTo (bget [32, 624, 624, 624] 0)
        ((Cage.new [0, 1, 2, 3] 30 true).getRemainingNumbers [32, 624, 624, 624])) ∧
    (bget [32, 592, 592, 592] 1 = bget [32, 624, 624, 624] 1 ∨
      bget [32, 592, 592, 592] 1 = restrictTo (bget [32, 624, 624, 624] 1)
        ((Cage.new [0, 1, 2, 3] 30 true).getRemainingNumbers [32, 624, 624, 624])) := by
  have h := claim_C8 (Cage.new [0, 1, 2, 3] 30 true) [32, 624, 624, 624]
    [32, 592, 592, 592] true (by decide) rfl
  exact ⟨h 0, h 1⟩

/-! ### Claim C5 (partition detection) -/

/-- Bitwise OR of a list of masks. -/
def orAll (l : List Nat) : Nat := l.foldr (fun x acc => x ||| acc) 0

/-- The union of the board domains of a list of cells. -/
def unionOf (b : Board) (cells : List Nat) : Nat :=
  orAll (cells.map (fun i => bget b i))

theorem orAll_perm {l l' : List Nat} (h : List.Perm l l') : orAll l = orAll l' := by
  induction h with
  | nil => rfl
  | cons x _ ih => simp only [orAll, List.foldr_cons] at ih ⊢; rw [ih]
  | swap x y l =>
    simp only [orAll, List.foldr_cons]
    rw [← Nat.or_assoc, Nat.or_comm y x, Nat.or_assoc]
  | trans _ _ ih1 ih2 => exact ih1.trans ih2

theorem testBit_orAll (l : List Nat) (i : Nat) :
    (orAll l).testBit i = l.any (fun x => x.testBit i) := by
  induction l with
  | nil => simp [orAll]
  | cons x xs ih =>
    simp only [orAll, List.foldr_cons, List.any_cons] at ih ⊢
    rw [Nat.testBit_lor, ih]

theorem foldr_or_eq_orAll_map {α : Type} (f : α → Nat) (l : List α) :
    l.foldr (fun e acc => acc ||| f e) 0 = orAll (l.map f) := by
  induction l with
  | nil => rfl
  | cons e es ih =>
    simp only [List.foldr_cons, List.map_cons, orAll, ih]
    rw [Nat.or_comm]

/-- The source's bit test `(m >> i) & 1 == 1` is `testBit`. -/
theorem bit_one_iff (m i : Nat) : ((m >>> i) &&& 1 = 1) ↔ m.testBit i = true := by
  rw [Nat.testBit, Nat.and_comm 1 (m >>> i), Nat.and_one_is_mod]
  rcases Nat.mod_two_eq_zero_or_one (m >>> i) with h | h <;> simp [h]

theorem bit_zero_iff (m i : Nat) : ((m >>> i) &&& 1 = 0) ↔ m.testBit i = false := by
  rw [Nat.testBit, Nat.and_comm 1 (m >>> i), Nat.and_one_is_mod]
  rcases Nat.mod_two_eq_zero_or_one (m >>> i) with h | h <;> simp [h]

theorem bit_zero_eq_not_one (m i : Nat) :
    decide ((m >>> i) &&& 1 = 0) = !decide ((m >>> i) &&& 1 = 1) := by
  rw [Nat.and_one_is_mod]
  rcases Nat.mod_two_eq_zero_or_one (m >>> i) with h | h <;> simp [h]

/-- A filterMap through an if-guard is a map of a filter. -/
theorem filterMap_ite {α β : Type} (q : α → Prop) [DecidablePred q] (f : α → β)
    (l : List α) :
    l.filterMap (fun a => if q a then some (f a) else none) =
      (l.filter (fun a => decide (q a))).map f := by
  induction l with
  | nil => rfl
  | cons a as ih => by_cases h : q a <;> simp [h, ih]

/-- The new-cage and remaining-cage cells of a partition split the original
cage's cell list. -/
theorem cfp_cells_perm (cellsMask : Nat) (cells : List Nat) :
    List.Perm
      ((cells.enum.filterMap
          (fun p => if (cellsMask >>> p.1) &&& 1 = 1 then some p.2 else none)) ++
        (cells.enum.filterMap
          (fun p => if (cellsMask >>> p.1) &&& 1 = 0 then some p.2 else none)))
      cells := by
  rw [filterMap_ite, filterMap_ite]
  have hcongr : cells.enum.filter (fun p => decide ((cellsMask >>> p.1) &&& 1 = 0)) =
      cells.enum.filter (fun p => !decide ((cellsMask >>> p.1) &&& 1 = 1)) := by
    apply List.filter_congr
    intro p _
    exact bit_zero_eq_not_one cellsMask p.1
  rw [hcongr, ← List.map_append]
  have hperm := List.filter_append_perm
    (fun p : Nat × Nat => decide ((cellsMask >>> p.1) &&& 1 = 1)) cells.enum
  have := hperm.map (fun p : Nat × Nat => p.2)
  refine this.trans ?_
  have : cells.enum.map (fun p : Nat × Nat => p.2) = cells.enum.map Prod.snd := rfl
  rw [this, List.enum, List.enumFrom_map_snd]

/-- Propagating `none` through the accumulator of the combination fold. -/
theorem fcFold_none (choose mvl : Nat) (data : List (Nat × Nat)) :
    ∀ il : List Nat,
    (il.foldl (fun acc i =>
      match acc with
      | none => none
      | some out =>
        match fold_combinations (i + 1) (choose + 1) mvl data with
        | none => none
        | some folded => some (out ++ folded.filterMap (fcCombine mvl data i)))
      none) = (none : Option (List (Nat × Nat))) := by
  intro il
  induction il with
  | nil => rfl
  | cons i is ih => exact ih

/-- Membership in the result of the combination fold comes from one of the
iterated indices. -/
theorem fcFold_mem (choose mvl : Nat) (data : List (Nat × Nat)) :
    ∀ (il : List Nat) (acc0 out : List (Nat × Nat)),
    (il.foldl (fun acc i =>
      match acc with
      | none => none
      | some out =>
        match fold_combinations (i + 1) (choose + 1) mvl data with
        | none => none
        | some folded => some (out ++ folded.filterMap (fcCombine mvl data i)))
      (some acc0)) = some out →
    ∀ x ∈ out, x ∈ acc0 ∨ ∃ i ∈ il, ∃ folded,
      fold_combinations (i + 1) (choose + 1) mvl data = some folded ∧
      x ∈ folded.filterMap (fcCombine mvl data i) := by
  intro il
  induction il with
  | nil =>
    intro acc0 out h x hx
    simp only [List.foldl_nil, Option.some.injEq] at h
    exact Or.inl (h ▸ hx)
  | cons i is ih =>
    intro acc0 out h x hx
    rw [List.foldl_cons] at h
    cases hfc : fold_combinations (i + 1) (choose + 1) mvl data with
    | none =>
      rw [hfc] at h
      rw [fcFold_none] at h
      exact Option.noConfusion h
    | some folded =>
      rw [hfc] at h
      rcases ih _ out h x hx with hin | ⟨j, hj, r, hr, hxr⟩
      · rcases List.mem_append.mp hin with h0 | h1
        · exact Or.inl h0
        · exact Or.inr ⟨i, List.mem_cons_self i is, folded, hfc, h1⟩
      · exact Or.inr ⟨j, List.mem_cons_of_mem i hj, r, hr, hxr⟩

/-- Specification of `fold_combinations`: each returned `(key-mask, value)`
pair is built from a `choose`-element sub-selection (a sublist) of the data
beyond `index`: its key mask is the OR of `1 << key` over the selection and
its value is the OR of the selected values. -/
theorem fold_combinations_spec :
    ∀ (choose index mvl : Nat) (data out : List (Nat × Nat)),
    fold_combinations index choose mvl data = some out →
    ∀ kv ∈ out, ∃ sub : List (Nat × Nat),
      sub.Sublist (data.drop index) ∧ sub.length = choose ∧
      kv.1 = orAll (sub.map (fun e => 1 <<< e.1)) ∧
      kv.2 = orAll (sub.map (fun e => e.2)) := by
  intro choose
  induction choose using Nat.strong_induction_on with
  | _ choose ih =>
    match choose with
    | 0 => intro index mvl data out h; exact Option.noConfusion h
    | 1 =>
      intro index mvl data out h kv hkv
      simp only [fold_combinations, Option.some.injEq] at h
      rw [← h] at hkv
      obtain ⟨e, he, hf⟩ := List.mem_filterMap.mp hkv
      split at hf
      · simp only [Option.some.injEq] at hf
        refine ⟨[e], List.singleton_sublist.mpr he, rfl, ?_, ?_⟩
        · rw [← hf]; simp [orAll]
        · rw [← hf]; simp [orAll]
      · exact Option.noConfusion hf
    | n+2 =>
      intro index mvl data out h kv hkv
      simp only [fold_combinations] at h
      rcases fcFold_mem n mvl data _ [] out h kv hkv with hnil | ⟨i, hi, folded, hfc, hkvf⟩
      · exact absurd hnil (List.not_mem_nil kv)
      · obtain ⟨fkv, hfkv, hcomb⟩ := List.mem_filterMap.mp hkvf
        obtain ⟨sub', hsub', hlen', hkey', hval'⟩ :=
          ih (n+1) (by omega) (i+1) mvl data folded hfc fkv hfkv
        simp only [fcCombine] at hcomb
        split at hcomb
        · simp only [Option.some.injEq] at hcomb
          have hiin := List.mem_range'_1.mp hi
          have hilen : i < data.length := by omega
          have hgetd : data.getD i (0, 0) = data[i] := by
            rw [List.getD_eq_getElem?_getD, List.getElem?_eq_getElem hilen]
            rfl
          refine ⟨data[i] :: sub', ?_, by simp [hlen'], ?_, ?_⟩
          · have h1 : (data[i] :: sub').Sublist (data[i] :: data.drop (i+1)) :=
              List.Sublist.cons₂ _ hsub'
            have h2 : data[i] :: data.drop (i+1) = data.drop i :=
              (List.drop_eq_getElem_cons hilen).symm
            rw [h2] at h1
            exact h1.trans (List.drop_sublist_drop_left data (by omega))
          · rw [← hcomb, hkey']
            simp only [List.map_cons, orAll, List.foldr_cons, hgetd]
            rw [Nat.or_comm]
          · rw [← hcomb, hval']
            simp only [List.map_cons, orAll, List.foldr_cons, hgetd]
            rw [Nat.or_comm]
        · exact Option.noConfusion hcomb

/-- The partition search returns the head of a successful
`fold_combinations` call for one of the probed sizes. -/
theorem cfpSearch_spec (data : List (Nat × Nat)) :
    ∀ (il : List Nat) (kv : Nat × Nat), cfpSearch data il = some (some kv) →
    ∃ i ∈ il, ∃ out, fold_combinations 0 i i data = some out ∧ kv ∈ out := by
  intro il
  induction il with
  | nil => intro kv h; simp [cfpSearch] at h
  | cons i is ih =>
    intro kv h
    simp only [cfpSearch] at h
    split at h
    · exact Option.noConfusion h
    · obtain ⟨j, hj, out, hout, hm⟩ := ih kv h
      exact ⟨j, List.mem_cons_of_mem i hj, out, hout, hm⟩
    · next kv' rest heq =>
      simp only [Option.some.injEq] at h
      exact ⟨i, List.mem_cons_self i is, kv' :: rest, heq, h ▸ List.mem_cons_self kv' rest⟩

/-- The key positions of an enum are distinct. -/
theorem enum_fst_nodup {α : Type} (l : List α) : (l.enum.map Prod.fst).Nodup := by
  rw [List.enum, List.enumFrom_map_fst, ← List.range_eq_range']
  exact List.nodup_range _

/-- Facts about a member of the sorted `(index, mask)` data of
`check_for_partitions`: its key is a cell position and its value is the
board mask of the cell at that position. -/
theorem cfp_data_mem {c : Cage} {b : Board} {e : Nat × Nat}
    (he : e ∈ ((c.cells.map (fun cellIndex => bget b cellIndex)).enum).insertionSort
      (fun x y => popcnt64 x.2 ≤ popcnt64 y.2)) :
    e.1 < c.cells.length ∧ e.2 = bget b (c.cells.getD e.1 0) := by
  have hm : e ∈ (c.cells.map (fun cellIndex => bget b cellIndex)).enum :=
    (List.perm_insertionSort _ _).mem_iff.mp he
  have h2 := List.mem_enum_iff_getElem?.mp hm
  have hlen := (List.getElem?_eq_some.mp h2).1
  rw [List.length_map] at hlen
  refine ⟨hlen, ?_⟩
  rw [List.getElem?_map] at h2
  cases hc : c.cells[e.1]? with
  | none => rw [hc] at h2; exact absurd h2 (by simp)
  | some idx =>
    rw [hc] at h2
    simp only [Option.map_some', Option.some.injEq] at h2
    rw [List.getD_eq_getElem?_getD, hc]
    exact h2.symm

/-- The union of the original domains of the cells selected by the
partition's key mask equals the value mask found by the search. -/
theorem cfp_union_eq {c : Cage} {b : Board} {cellsMask values : Nat}
    {sub : List (Nat × Nat)}
    (hsub : sub.Sublist (((c.cells.map (fun cellIndex => bget b cellIndex)).enum).insertionSort
      (fun x y => popcnt64 x.2 ≤ popcnt64 y.2)))
    (hkey : cellsMask = orAll (sub.map (fun e => 1 <<< e.1)))
    (hval : values = orAll (sub.map (fun e => e.2))) :
    unionOf b (c.cells.enum.filterMap
      (fun p => if (cellsMask >>> p.1) &&& 1 = 1 then some p.2 else none)) = values := by
  have hsubmem : ∀ e ∈ sub, e.1 < c.cells.length ∧ e.2 = bget b (c.cells.getD e.1 0) :=
    fun e he => cfp_data_mem (hsub.subset he)
  have hsubnodup : (sub.map (fun e : Nat × Nat => e.1)).Nodup := by
    have h1 : (sub.map (fun e : Nat × Nat => e.1)).Sublist
        ((((c.cells.map (fun cellIndex => bget b cellIndex)).enum).insertionSort
          (fun x y => popcnt64 x.2 ≤ popcnt64 y.2)).map (fun e : Nat × Nat => e.1)) :=
      hsub.map _
    have h2 : ((((c.cells.map (fun cellIndex => bget b cellIndex)).enum).insertionSort
        (fun x y => popcnt64 x.2 ≤ popcnt64 y.2)).map (fun e : Nat × Nat => e.1)).Nodup := by
      have hperm := (List.perm_insertionSort
        (fun x y : Nat × Nat => popcnt64 x.2 ≤ popcnt64 y.2)
        ((c.cells.map (fun cellIndex => bget b cellIndex)).enum)).map
        (fun e : Nat × Nat => e.1)
      exact hperm.nodup_iff.mpr (enum_fst_nodup _)
    exact h2.sublist h1
  have hbitiff : ∀ k, Nat.testBit cellsMask k = true ↔
      k ∈ sub.map (fun e : Nat × Nat => e.1) := by
    intro k
    rw [hkey, testBit_orAll, List.any_eq_true]
    constructor
    · rintro ⟨m, hm, hbit⟩
      obtain ⟨e, he, hme⟩ := List.mem_map.mp hm
      rw [← hme, Nat.shiftLeft_eq, one_mul, Nat.testBit_two_pow] at hbit
      exact List.mem_map.mpr ⟨e, he, of_decide_eq_true hbit⟩
    · intro hk
      obtain ⟨e, he, hek⟩ := List.mem_map.mp hk
      refine ⟨1 <<< e.1, List.mem_map.mpr ⟨e, he, rfl⟩, ?_⟩
      rw [Nat.shiftLeft_eq, one_mul, Nat.testBit_two_pow]
      exact decide_eq_true hek
  have hKLmem : ∀ k,
      k ∈ (c.cells.enum.filter
        (fun p => decide ((cellsMask >>> p.1) &&& 1 = 1))).map (fun p : Nat × Nat => p.1) ↔
      (k < c.cells.length ∧ Nat.testBit cellsMask k = true) := by
    intro k
    constructor
    · intro hk
      obtain ⟨p, hp, hpk⟩ := List.mem_map.mp hk
      obtain ⟨hpe, hpq⟩ := List.mem_filter.mp hp
      have hlt := (List.getElem?_eq_some.mp (List.mem_enum_iff_getElem?.mp hpe)).1
      refine ⟨hpk ▸ hlt, ?_⟩
      rw [← hpk]
      exact (bit_one_iff cellsMask p.1).mp (of_decide_eq_true hpq)
    · rintro ⟨hk, hbit⟩
      refine List.mem_map.mpr ⟨(k, c.cells[k]), List.mem_filter.mpr ⟨?_, ?_⟩, rfl⟩
      · exact List.mem_enum_iff_getElem?.mpr (List.getElem?_eq_getElem hk)
      · exact decide_eq_true ((bit_one_iff cellsMask k).mpr hbit)
  have hKLnodup : ((c.cells.enum.filter
      (fun p => decide ((cellsMask >>> p.1) &&& 1 = 1))).map (fun p : Nat × Nat => p.1)).Nodup := by
    have h1 : ((c.cells.enum.filter
        (fun p => decide ((cellsMask >>> p.1) &&& 1 = 1))).map (fun p : Nat × Nat => p.1)).Sublist
        (c.cells.enum.map (fun p : Nat × Nat => p.1)) :=
      (List.filter_sublist _).map _
    exact (enum_fst_nodup c.cells).sublist h1
  have hperm : List.Perm
      ((c.cells.enum.filter
        (fun p => decide ((cellsMask >>> p.1) &&& 1 = 1))).map (fun p : Nat × Nat => p.1))
      (sub.map (fun e : Nat × Nat => e.1)) := by
    refine (List.perm_ext_iff_of_nodup hKLnodup hsubnodup).mpr ?_
    intro k
    rw [hKLmem k]
    constructor
    · rintro ⟨_, hbit⟩
      exact (hbitiff k).mp hbit
    · intro hk
      obtain ⟨e, he, hek⟩ := List.mem_map.mp hk
      exact ⟨hek ▸ (hsubmem e he).1, (hbitiff k).mpr hk⟩
  unfold unionOf
  rw [filterMap_ite, List.map_map]
  have hpw : (c.cells.enum.filter
      (fun p => decide ((cellsMask >>> p.1) &&& 1 = 1))).map
        ((fun i => bget b i) ∘ (fun p : Nat × Nat => p.2)) =
      (c.cells.enum.filter
        (fun p => decide ((cellsMask >>> p.1) &&& 1 = 1))).map
        ((fun k => bget b (c.cells.getD k 0)) ∘ (fun p : Nat × Nat => p.1)) := by
    apply List.map_congr_left
    intro p hp
    have hpe := (List.mem_filter.mp hp).1
    have h2 := List.mem_enum_iff_getElem?.mp hpe
    simp only [Function.comp_apply]
    rw [List.getD_eq_getElem?_getD, h2]
    rfl
  rw [hpw, ← List.map_map]
  have hsubpw : sub.map (fun e : Nat × Nat => e.2) =
      sub.map ((fun k => bget b (c.cells.getD k 0)) ∘ (fun e : Nat × Nat => e.1)) := by
    apply List.map_congr_left
    intro e he
    exact (hsubmem e he).2
  rw [hval, hsubpw, ← List.map_map]
  exact orAll_perm (hperm.map _)

/-- Claim C5: whenever `check_for_partitions` returns
`Some((new_cage, remaining_cage))`, the two cages' cell lists partition the
original cage's cells, `new_cage`'s sum is the sum of the digits of the
forced value set (the union of the original domains of `new_cage`'s cells),
and `remaining_cage`'s sum is the original sum minus `new_cage`'s sum
(stated additively: the two sums add up to the original). -/
theorem claim_C5 (c : Cage) (b b' : Board) (newCage remCage : Cage)
    (h : c.checkForPartitions b = some (b', some (newCage, remCage))) :
    List.Perm (newCage.cells ++ remCage.cells) c.cells ∧
    newCage.sum = bitIndexSum (unionOf b newCage.cells) ∧
    newCage.sum + remCage.sum = c.sum := by
  simp only [Cage.checkForPartitions] at h
  split at h
  · exact Option.noConfusion h
  · simp only [Option.some.injEq, Prod.mk.injEq] at h
    exact absurd h.2 (by simp)
  · next cellsMask values heqSearch =>
    split at h
    case isFalse => exact Option.noConfusion h
    case isTrue hassert =>
      split at h
      case isFalse => exact Option.noConfusion h
      case isTrue hle =>
        split at h
        · exact Option.noConfusion h
        · next b3 flag hequ =>
          simp only [Option.some.injEq, Prod.mk.injEq] at h
          obtain ⟨hb3, hnewc, hremc⟩ := h
          obtain ⟨i, _, out, hout, hmem⟩ := cfpSearch_spec _ _ _ heqSearch
          obtain ⟨sub, hsub, _, hkey, hval⟩ :=
            fold_combinations_spec i 0 i _ out hout (cellsMask, values) hmem
          rw [List.drop_zero] at hsub
          have hunion := cfp_union_eq hsub hkey hval
          refine ⟨?_, ?_, ?_⟩
          · rw [← hnewc, ← hremc]
            refine List.Perm.trans ?_ (cfp_cells_perm cellsMask c.cells)
            exact List.Perm.append (List.perm_insertionSort _ _) (List.perm_insertionSort _ _)
          · rw [← hnewc]
            show bitIndexSum values = bitIndexSum (unionOf b (Cage.new _ _ false).cells)
            have hcells : (Cage.new (c.cells.enum.filterMap
                (fun p => if (cellsMask >>> p.1) &&& 1 = 1 then some p.2 else none))
                (bitIndexSum values) false).cells.Perm
                (c.cells.enum.filterMap
                  (fun p => if (cellsMask >>> p.1) &&& 1 = 1 then some p.2 else none)) :=
              List.perm_insertionSort _ _
            have : unionOf b (Cage.new (c.cells.enum.filterMap
                (fun p => if (cellsMask >>> p.1) &&& 1 = 1 then some p.2 else none))
                (bitIndexSum values) false).cells =
                unionOf b (c.cells.enum.filterMap
                  (fun p => if (cellsMask >>> p.1) &&& 1 = 1 then some p.2 else none)) :=
              orAll_perm (hcells.map _)
            rw [this, hunion]
          · rw [← hnewc, ← hremc]
            show bitIndexSum values + (c.sum - bitIndexSum values) = c.sum
            omega

/-- Witness for C5 on the seed scenario: the 4-cell uniqueness cage of sum
10 in which cells 0 and 1 have domain `{1,2}` splits into those two cells
with sum 3 and the other two cells with sum 7. -/
theorem claim_C5_witness :
    (Cage.new [0, 1, 2, 3] 10 true).checkForPartitions [6, 6, 1022, 1022] =
      some ([6, 6, 120, 120], some (Cage.new [0, 1] 3 false, Cage.new [2, 3] 7 false)) ∧
    List.Perm ((Cage.new [0, 1] 3 false).cells ++ (Cage.new [2, 3] 7 false).cells)
      (Cage.new [0, 1, 2, 3] 10 true).cells ∧
    (Cage.new [0, 1] 3 false).sum =
      bitIndexSum (unionOf [6, 6, 1022, 1022] (Cage.new [0, 1] 3 false).cells) ∧
    (Cage.new [0, 1] 3 false).sum + (Cage.new [2, 3] 7 false).sum =
      (Cage.new [0, 1, 2, 3] 10 true).sum := by
  have h := claim_C5 (Cage.new [0, 1, 2, 3] 10 true) [6, 6, 1022, 1022]
    [6, 6, 120, 120] (Cage.new [0, 1] 3 false) (Cage.new [2, 3] 7 false) rfl
  exact ⟨rfl, h.1, h.2.1, h.2.2⟩

/-! ### Claim C3 (progress and degrees of freedom) -/

theorem sum_map_le_pointwise {f : Nat → Nat} :
    ∀ (xs ys : List Nat), xs.length = ys.length →
    (∀ j, j < ys.length → f (xs.getD j 0) ≤ f (ys.getD j 0)) →
    (xs.map f).sum ≤ (ys.map f).sum := by
  intro xs
  induction xs with
  | nil => intro ys hlen _; rw [(List.length_eq_zero.mp hlen.symm : ys = [])]
  | cons x xt ih =>
    intro ys hlen hle
    match ys with
    | y :: yt =>
      simp only [List.map_cons, List.sum_cons]
      have h0 : f x ≤ f y := hle 0 (by simp)
      have ht : (xt.map f).sum ≤ (yt.map f).sum := by
        refine ih yt (by simpa using hlen) ?_
        intro j hj
        exact hle (j + 1) (by simpa using Nat.succ_lt_succ hj)
      omega

theorem sum_map_lt_pointwise {f : Nat → Nat} :
    ∀ (xs ys : List Nat), xs.length = ys.length →
    (∀ j, j < ys.length → f (xs.getD j 0) ≤ f (ys.getD j 0)) →
    (∃ j, j < ys.length ∧ f (xs.getD j 0) < f (ys.getD j 0)) →
    (xs.map f).sum < (ys.map f).sum := by
  intro xs
  induction xs with
  | nil =>
    intro ys hlen _ hex
    obtain ⟨j, hj, _⟩ := hex
    rw [← hlen] at hj
    simp at hj
  | cons x xt ih =>
    intro ys hlen hle hex
    match ys with
    | y :: yt =>
      simp only [List.map_cons, List.sum_cons]
      have h0 : f x ≤ f y := hle 0 (by simp)
      obtain ⟨j, hj, hstrict⟩ := hex
      match j with
      | 0 =>
        have ht : (xt.map f).sum ≤ (yt.map f).sum := by
          refine sum_map_le_pointwise xt yt (by simpa using hlen) ?_
          intro j hj
          exact hle (j + 1) (by simpa using Nat.succ_lt_succ hj)
        have : f x < f y := hstrict
        omega
      | j+1 =>
        have ht : (xt.map f).sum < (yt.map f).sum := by
          refine ih yt (by simpa using hlen) ?_ ⟨j, by simpa using Nat.lt_of_succ_lt_succ hj, hstrict⟩
          intro j hj
          exact hle (j + 1) (by simpa using Nat.succ_lt_succ hj)
        omega

/-- Write-backs preserve the board length. -/
theorem writeFold_length : ∀ (pairs : List (Nat × Nat)) (bb : Board),
    (pairs.foldl (fun bb iv => bset bb iv.1 iv.2) bb).length = bb.length := by
  intro pairs
  induction pairs with
  | nil => intro bb; rfl
  | cons q qs ih => intro bb; rw [List.foldl_cons, ih]; exact List.length_set bb q.1 q.2

/-- Structure of a successful write-back: the progress bit is exactly the
cage-degrees-of-freedom comparison and the length is preserved. -/
theorem restrictWrite_parts {c : Cage} {b b' : Board} {rs rn idf : Nat} {pr : Bool}
    {sorted : List (Nat × Nat)}
    (h : restrictWrite c b rs rn idf sorted = some (b', pr)) :
    pr = decide (c.getDegreesOfFreedom b' < idf) ∧ b'.length = b.length := by
  match sorted with
  | [] => exact Option.noConfusion h
  | first :: rest =>
    simp only [restrictWrite, Option.some.injEq, Prod.mk.injEq] at h
    obtain ⟨hb, hp⟩ := h
    subst hb
    exact ⟨hp.symm, writeFold_length _ b⟩

/-- Counterexample to Claim C3 as stated: the partition reducer (whose
`Some` result makes `reduce_by_partition` report progress to
`solve_until_stuck`) can report a partition while leaving the board — and
hence the total degrees of freedom — completely unchanged.  On the 2-cell
cage `([0,1], 8)` with cells `{3}` and `{5}`, `check_for_partitions` splits
off `([0], 3)` / `([1], 5)` and the board `[8, 32]` is returned verbatim. -/
theorem claim_C3_counterexample :
    (Cage.new [0, 1] 8 true).checkForPartitions [8, 32] =
      some ([8, 32], some (Cage.new [0] 3 false, Cage.new [1] 5 false)) ∧
    ¬ totalDOF [8, 32] < totalDOF [8, 32] :=
  ⟨rfl, Nat.lt_irrefl _⟩

/-- Claim C3, amended: the degrees-of-freedom argument holds for the
pairwise reducer that drives the `while reduce_by_combination` loop of
`solve_until_stuck`: whenever `Cage::restrict` reports progress on a board
whose cage cells are in range and whose masks are cell masks (below
`2 ^ 10`), the total degrees of freedom (the sum over all cells of the
popcount of their masks) strictly decreases; it is bounded below, so that
loop reaches a fixpoint after finitely many iterations.  The partition
reducer, by contrast, can report progress without decreasing the total
degrees of freedom (see the counterexample); termination of its loop rests
on the cage-set measure instead. -/
theorem claim_C3 (c : Cage) (b b' : Board)
    (hwf : ∀ i ∈ c.cells, i < b.length)
    (hmask : ∀ i, i < b.length → bget b i < 1024)
    (h : c.restrict b = some (b', true)) :
    totalDOF b' < totalDOF b := by
  have hsub := restrict_sub h
  simp only [Cage.restrict] at h
  split at h
  · exact Option.noConfusion h
  · split at h
    · simp only [Option.some.injEq, Prod.mk.injEq] at h
      exact absurd h.2 (by simp)
    · have hparts := restrictWrite_parts h
      have hdof : c.getDegreesOfFreedom b' < c.getDegreesOfFreedom b :=
        of_decide_eq_true hparts.1.symm
      have hlen := hparts.2
      have hpoint : ∀ j, j < b.length → popcnt64 (bget b' j) ≤ popcnt64 (bget b j) :=
        fun j hj => popcnt64_submask_le (hsub j) (hmask j hj)
      have hex : ∃ i ∈ c.cells, popcnt64 (bget b' i) < popcnt64 (bget b i) := by
        by_contra hno
        push_neg at hno
        have hge : c.getDegreesOfFreedom b ≤ c.getDegreesOfFreedom b' := by
          unfold Cage.getDegreesOfFreedom numPossibleSolutions
          exact List.sum_le_sum hno
        omega
      obtain ⟨i₀, hi₀mem, hi₀⟩ := hex
      unfold totalDOF
      refine sum_map_lt_pointwise b' b hlen hpoint ⟨i₀, hwf _ hi₀mem, hi₀⟩

/-- Witness for the amended C3: on the C8 example the reducer reports
progress and the total degrees of freedom drop from 13 to 10. -/
theorem claim_C3_witness :
    (Cage.new [0, 1, 2, 3] 30 true).restrict [32, 624, 624, 624] =
      some ([32, 592, 592, 592], true) ∧
    totalDOF [32, 592, 592, 592] < totalDOF [32, 624, 624, 624] := by
  refine ⟨rfl, ?_⟩
  refine claim_C3 (Cage.new [0, 1, 2, 3] 30 true) [32, 624, 624, 624]
    [32, 592, 592, 592] (by decide) ?_ rfl
  intro i hi
  have h4 : i < 4 := by simpa using hi
  interval_cases i <;> decide

/-! ### Puzzle construction (puzzle.rs)

The cage set of a `Puzzle` is a `BTreeSet<Cage>` with the derived
lexicographic `Ord` on `(cells, sum, uniqueness)`; it is modelled as a
sorted duplicate-free list with ordered insertion. -/

/-- Lexicographic order on `Vec<usize>` (a proper prefix is smaller). -/
def compareList : List Nat → List Nat → Ordering
  | [], [] => .eq
  | [], _ :: _ => .lt
  | _ :: _, [] => .gt
  | a :: as, b :: bs =>
    match compare a b with
    | .eq => compareList as bs
    | o => o

/-- Derived `Ord` on `bool` (`false < true`). -/
def compareBool : Bool → Bool → Ordering
  | false, true => .lt
  | true, false => .gt
  | _, _ => .eq

/-- The derived `Ord` on `Cage`: fields in declaration order. -/
def compareCage (a b : Cage) : Ordering :=
  match compareList a.cells b.cells with
  | .eq =>
    match compare a.sum b.sum with
    | .eq => compareBool a.uniqueness b.uniqueness
    | o => o
  | o => o

/-- `BTreeSet::insert`: ordered insertion, no duplicates. -/
def cageSetInsert : List Cage → Cage → List Cage
  | [], c => [c]
  | x :: rest, c =>
    match compareCage c x with
    | .lt => c :: x :: rest
    | .eq => x :: rest
    | .gt => x :: cageSetInsert rest c

/-- puzzle.rs `Puzzle`: 81 cells and the ordered cage set. -/
structure Puzzle where
  board : Board
  cages : List Cage
deriving DecidableEq, Repr

/-- puzzle.rs `Puzzle::new`: default board plus the 27 intrinsic sum-45
uniqueness cages (9 rows, 9 columns, 9 boxes). -/
def Puzzle.new : Puzzle :=
  let s0 : List Cage := []
  let s1 := (List.range 9).foldl
    (fun s i => cageSetInsert s (Cage.new (List.range' (i * 9) 9) 45 true)) s0
  let s2 := (List.range 9).foldl
    (fun s i => cageSetInsert s (Cage.new ((List.range 9).map (fun j => j * 9 + i)) 45 true)) s1
  let s3 := (List.range 3).foldl
    (fun s i => (List.range 3).foldl
      (fun s j => cageSetInsert s (Cage.new
        (((List.range 3).map (fun ii =>
          (List.range 3).map (fun jj => (i * 3 + ii) * 9 + (j * 3 + jj)))).flatten)
        45 true)) s) s2
  { board := List.replicate 81 cellDefault, cages := s3 }

/-- puzzle.rs `Puzzle::check_cages`: count, for every cell, in how many
cages it appears, and list the cells whose count differs from `expected`. -/
def Puzzle.checkCages (p : Puzzle) (expected : Nat) : List (Nat × Nat) :=
  let sums := p.cages.foldl
    (fun acc cage => cage.cells.foldl
      (fun a cell => a.set cell (a.getD cell 0 + 1)) acc)
    (List.replicate 81 0)
  sums.enum.filterMap (fun q => if q.2 ≠ expected then some (q.1, q.2) else none)

/-- puzzle.rs `derive_cages`, the per-parent closure: subtract contained
child cages from the parent, merge overlapping ones into the excess cage,
and emit the residual cages.  `none` models the panics: the
`assert_eq!(parent_difference.len(), 0)` and the usize underflows of the
sum subtractions (debug builds). -/
def deriveCagesOne (cages : List Cage) (parentCage0 : Cage) : Option (List Cage) :=
  let stepRes := (cages.filter (fun cage => cage.cells.length < 9)).foldl
    (fun acc childCage =>
      match acc with
      | none => none
      | some pe =>
        let parentCage := pe.1
        let excessCage := pe.2
        let r := parentCage.getIntersectionAndDifference childCage
        if r.2.2.length = 0 then
          if childCage.sum ≤ parentCage.sum then
            some (Cage.new r.2.1 (parentCage.sum - childCage.sum) true, excessCage)
          else none
        else if r.1.length > 0 then some (parentCage, excessCage.merge childCage)
        else some (parentCage, excessCage))
    (some (parentCage0, Cage.emptyCage))
  match stepRes with
  | none => none
  | some pe =>
    let parentCage := pe.1
    let excessCage := pe.2
    let rr := excessCage.getIntersectionAndDifference parentCage
    if rr.2.2.length ≠ 0 then none
    else
      let out1 : Option (List Cage) :=
        if 0 < rr.2.1.length ∧ rr.2.1.length ≤ 4 then
          if parentCage.sum ≤ excessCage.sum then
            some [Cage.new rr.2.1 (excessCage.sum - parentCage.sum) false]
          else none
        else some []
      match out1 with
      | none => none
      | some out =>
        if 0 < parentCage.cells.length ∧ parentCage.cells.length ≤ 8 then
          some (out ++ [parentCage])
        else some out

/-- puzzle.rs `derive_cages`: run the per-parent derivation over every
9-cell cage and add the results to the cage set. -/
def Puzzle.deriveCages (p : Puzzle) : Option Puzzle :=
  let parents := p.cages.filter (fun cage => cage.cells.length = 9)
  match parents.foldl
    (fun acc parent =>
      match acc with
      | none => none
      | some ls =>
        match deriveCagesOne p.cages parent with
        | none => none
        | some nl => some (ls ++ nl))
    (some []) with
  | none => none
  | some newCages => some { p with cages := newCages.foldl cageSetInsert p.cages }

/-- The insertion loop of `init_cages`: add every user cage to the cage set
as a uniqueness cage. -/
def insertUserCages (p : Puzzle) (cages : List (Nat × List Nat)) : Puzzle :=
  let newSet := cages.foldl (fun s sc => cageSetInsert s (Cage.new sc.2 sc.1 true)) p.cages
  { p with cages := newSet }

/-- puzzle.rs `Puzzle::init_cages`: insert the user cages (as uniqueness
cages), then optionally check that every cell lies in exactly 4 cages —
panicking with "Cells in cages are not balanced" otherwise — and derive
cages (whose own assertion failure is the other panic). -/
def Puzzle.initCages (p : Puzzle) (cages : List (Nat × List Nat))
    (performChecks : Bool) : Except String Puzzle :=
  let p' : Puzzle := insertUserCages p cages
  if performChecks then
    if (p'.checkCages 4).length > 0 then
      .error "Cells in cages are not balanced"
    else
      match p'.deriveCages with
      | none => .error "assertion failed in derive_cages"
      | some p'' => .ok p''
  else .ok p'

/-! ### Claim C9 (puzzle construction validation) -/

/-- Counterexample to Claim C9 as stated: no `MalformedPuzzle` error type
exists in the source — rejection is a panic — and a cage list that does
satisfy the every-cell-in-exactly-4-cages check need not construct: with
the nine row cages of sum 50 as user cages every cell lies in exactly 4
cages (the check returns `[]`), yet construction still panics, in
`derive_cages` (its `assert_eq!(parent_difference.len(), 0)` fails because
no cage has fewer than 9 cells). -/
theorem claim_C9_counterexample :
    ((insertUserCages Puzzle.new
        ((List.range 9).map (fun i => (50, List.range' (i * 9) 9)))).checkCages 4 = []) ∧
    Puzzle.new.initCages ((List.range 9).map (fun i => (50, List.range' (i * 9) 9))) true =
      .error "assertion failed in derive_cages" :=
  ⟨rfl, rfl⟩

/-- Claim C9, amended: `init_cages` (with checks enabled) rejects by
*panicking* with "Cells in cages are not balanced" — there is no
`MalformedPuzzle` error value anywhere in the source — and it does so
exactly when the cage list fails to put every cell in exactly 4 cages.
When the check passes, construction proceeds to cage derivation, which can
itself panic (see the counterexample), so passing the check does not
guarantee that construction succeeds. -/
theorem claim_C9 (userCages : List (Nat × List Nat))
    (hcells : ∀ sc ∈ userCages, ∀ cell ∈ sc.2, cell < 81) :
    (Puzzle.new.initCages userCages true = .error "Cells in cages are not balanced" ↔
      (insertUserCages Puzzle.new userCages).checkCages 4 ≠ []) := by
  unfold Puzzle.initCages
  simp only []
  constructor
  · intro h
    by_cases hchk : ((insertUserCages Puzzle.new userCages).checkCages 4).length > 0
    · intro hemp
      rw [hemp] at hchk
      simp at hchk
    · rw [if_pos trivial, if_neg hchk] at h
      split at h
      · exact absurd (Except.error.inj h) (by decide)
      · exact Except.noConfusion h
  · intro h
    have hlen : ((insertUserCages Puzzle.new userCages).checkCages 4).length > 0 :=
      List.length_pos.mpr h
    rw [if_pos trivial, if_pos hlen]

/-- Witness for the amended C9: with no user cages every cell lies in only
3 cages, the check is non-empty, and construction panics with the balance
message. -/
theorem claim_C9_witness :
    Puzzle.new.initCages [] true = .error "Cells in cages are not balanced" :=
  (claim_C9 [] (by simp)).mpr (by decide)

/-! ### The solver (puzzle.rs)

`solve_until_stuck` and its reducers run unbounded loops; they are modelled
with explicit fuel.  The fuel needed by `reduce_by_partition` is bounded by
the cage-set measure (every substitution replaces one cage by two with
strictly fewer cells each), and the fuel needed by the
`while reduce_by_combination` loop by the total degrees of freedom of the
board (claim C3's measure).  A result of `none` models a panic; the
`Except.error ()` value is the `Err(())` of
`solve_until_stuck_then_guess_and_fork`. -/

/-- puzzle.rs `reduce_by_combination`: try-fold `Cage::restrict` (called
`restrict_by_combination` there) over the cage set, OR-ing the progress
flags. -/
def reduceByCombination (cages : List Cage) (b : Board) : Option (Board × Bool) :=
  cages.foldl
    (fun acc cage =>
      match acc with
      | none => none
      | some (bb, progress) =>
        match cage.restrict bb with
        | none => none
        | some (bb', pr) => some (bb', pr || progress))
    (some (b, false))

/-- The substitution-collecting try-fold of puzzle.rs `reduce_by_partition`:
run `check_for_partitions` on every cage (threading the board) and collect
`(original, new, remaining)` triples. -/
def collectPartitions (cages : List Cage) (b : Board) :
    Option (Board × List (Cage × Cage × Cage)) :=
  cages.foldl
    (fun acc cage =>
      match acc with
      | none => none
      | some (bb, subs) =>
        match cage.checkForPartitions bb with
        | none => none
        | some (bb', none) => some (bb', subs)
        | some (bb', some (nc, rc)) => some (bb', subs ++ [(cage, nc, rc)]))
    (some (b, []))

/-- `BTreeSet::remove` on the sorted cage set. -/
def cageSetRemove : List Cage → Cage → List Cage
  | [], _ => []
  | x :: rest, c =>
    match compareCage c x with
    | .lt => x :: rest
    | .eq => rest
    | .gt => x :: cageSetRemove rest c

/-- The substitution loop of `reduce_by_partition`: for each collected
triple, remove the original cage and insert the new and remaining cages. -/
def applySubstitutions (cages : List Cage) (subs : List (Cage × Cage × Cage)) : List Cage :=
  subs.foldl
    (fun cs sub => cageSetInsert (cageSetInsert (cageSetRemove cs sub.1) sub.2.1) sub.2.2)
    cages

/-- The `loop` of puzzle.rs `reduce_by_partition`, structural on fuel:
repeat until a pass collects no substitutions. -/
def reduceByPartitionAux : Nat → List Cage → Board → Bool → Option (List Cage × Board × Bool)
  | 0, _, _, _ => none
  | fuel+1, cages, b, progress =>
    match collectPartitions cages b with
    | none => none
    | some (b', subs) =>
      if subs.length > 0 then
        reduceByPartitionAux fuel (applySubstitutions cages subs) b' true
      else some (cages, b', progress)

/-- puzzle.rs `reduce_by_partition`. -/
def reduceByPartition (fuel : Nat) (cages : List Cage) (b : Board) :
    Option (List Cage × Board × Bool) :=
  reduceByPartitionAux fuel cages b false

/-- The opening try-for-each of puzzle.rs `solve_until_stuck`:
`restrict_by_uniform_combination` on every cage, progress flags discarded. -/
def uniformPass (cages : List Cage) (b : Board) : Option Board :=
  cages.foldl
    (fun acc cage =>
      match acc with
      | none => none
      | some bb =>
        match cage.restrictByUniformCombination bb with
        | none => none
        | some (bb', _) => some bb')
    (some b)

/-- The `while self.reduce_by_combination()? { self.reduce_by_partition()?; }`
loop of `solve_until_stuck`, structural on the combination-loop fuel. -/
def combinationLoop : Nat → Nat → List Cage → Board → Option (List Cage × Board)
  | 0, _, _, _ => none
  | fuelW+1, fuelP, cages, b =>
    match reduceByCombination cages b with
    | none => none
    | some (b', progress) =>
      if progress then
        match reduceByPartition fuelP cages b' with
        | none => none
        | some (cages', b'', _) => combinationLoop fuelW fuelP cages' b''
      else some (cages, b')

/-- puzzle.rs `solve_until_stuck`: uniform pass, one partition reduction,
the combination/partition loop, then report whether every cell is solved. -/
def Puzzle.solveUntilStuck (p : Puzzle) (fuelW fuelP : Nat) : Option (Puzzle × Bool) :=
  match uniformPass p.cages p.board with
  | none => none
  | some b1 =>
    match reduceByPartition fuelP p.cages b1 with
    | none => none
    | some (cages2, b2, _) =>
      match combinationLoop fuelW fuelP cages2 b2 with
      | none => none
      | some (cages3, b3) =>
        some ({ board := b3, cages := cages3 }, b3.all (fun cell => (getSolution cell).isSome))

/-- `BTreeSet<usize>::insert` on a sorted duplicate-free list. -/
def natSetInsert : List Nat → Nat → List Nat
  | [], x => [x]
  | y :: rest, x =>
    if x < y then x :: y :: rest
    else if x = y then y :: rest
    else y :: natSetInsert rest x

/-- The cell-influence sets of `solve_until_stuck_then_guess_and_fork`:
for every uniqueness cage, every member cell records every member cell. -/
def cageCount (p : Puzzle) : List (List Nat) :=
  p.cages.foldl
    (fun cc cage =>
      if cage.uniqueness then
        cage.cells.foldl
          (fun cc2 a => cage.cells.foldl
            (fun cc3 other => cc3.set a (natSetInsert (cc3.getD a []) other)) cc2)
          cc
      else cc)
    (List.replicate 81 ([] : List Nat))

/-- Rust `Iterator::max_by_key`: the last maximal element (`none` on an
empty iterator). -/
def maxByKey {α : Type} (key : α → Nat) (l : List α) : Option α :=
  l.foldl
    (fun acc x =>
      match acc with
      | none => some x
      | some m => if key m ≤ key x then some x else some m)
    none

/-- The guess-cell selection of `solve_until_stuck_then_guess_and_fork`:
among unsolved cells, maximise `influence-set size / popcount`.  `none`
models the panics: the `.unwrap()` when no cell is unsolved, and the
division by zero when an unsolved cell has an empty mask. -/
def guessIndex (p : Puzzle) : Option Nat :=
  let candidates := (cageCount p).enum.filter
    (fun ic => (getSolution (bget p.board ic.1)).isNone)
  if candidates.any (fun ic => numPossibleSolutions (bget p.board ic.1) = 0) then none
  else
    (maxByKey (fun ic => ic.2.length / numPossibleSolutions (bget p.board ic.1))
      candidates).map (fun ic => ic.1)

/-- puzzle.rs `RECURSION_LIMIT` (local to
`solve_until_stuck_then_guess_and_fork`). -/
def RECURSION_LIMIT : Nat := 10

/-- One forked child: the guessed cell restricted to the guessed value
(`restrict_to(1 << guess_value)`; the `.unwrap()` of the later cell.rs
revision cannot fire because the guessed bit is possible). -/
def gafChild (p : Puzzle) (gi v : Nat) : Puzzle :=
  { p with board := bset p.board gi (restrictTo (bget p.board gi) (1 <<< v)) }

/-- puzzle.rs `solve_until_stuck_then_guess_and_fork`, structural on fuel
(each recursive call increments `depth`, and no call recurses at
`depth > RECURSION_LIMIT`, so any fuel exceeding the remaining depth budget
gives the function's value).  The thread fork/join is sequentialised: the
children run left to right; a child panic propagates through
`join().unwrap()` (the `none` short-circuit), while a child `Err` is
discarded by the `.filter_map(|handle| ...ok())` and contributes no
solutions. -/
def gafAux : Nat → Nat → Nat → Nat → Puzzle → Option (Except Unit (List Puzzle))
  | 0, _, _, _, _ => none
  | fuel+1, fuelW, fuelP, depth, p =>
    match p.solveUntilStuck fuelW fuelP with
    | none => none
    | some (p', true) => some (Except.ok [p'])
    | some (p', false) =>
      if depth > RECURSION_LIMIT then some (Except.error ())
      else
        match guessIndex p' with
        | none => none
        | some gi =>
          match (bitsList (bget p'.board gi)).foldl
              (fun acc v =>
                match acc with
                | none => none
                | some sols =>
                  match gafAux fuel fuelW fuelP (depth+1) (gafChild p' gi v) with
                  | none => none
                  | some (Except.error _) => some sols
                  | some (Except.ok s) => some (sols ++ s))
              (some []) with
          | none => none
          | some sols => some (Except.ok sols)

/-- puzzle.rs `Puzzle::solve`: run the search on a working copy from depth
0.  Recursion fuel 12 is never exhausted: every call at depth `d` was made
with fuel `12 - d`, and no call happens at depth greater than 11. -/
def Puzzle.solve (p : Puzzle) (fuelW fuelP : Nat) : Option (Except Unit (List Puzzle)) :=
  gafAux 12 fuelW fuelP 0 p

end KS

deriving instance DecidableEq for Except

namespace KS

/-! ### Claim C7 (recursion depth limit) -/

/-- Counterexample to Claim C7 as stated: the search performs up to 11
nested guesses, not 10.  On the degenerate stuck puzzle with no cages and a
single two-valued cell, a branch at depth 10 — which already has 10 nested
guesses above it — does not return the error: it guesses an 11th time and
returns the two solved boards.  Only a stuck branch at depth 11 returns
`Err(())` (and the error type is `()`; no `RecursionExhausted` value exists
in the source). -/
theorem claim_C7_counterexample :
    gafAux 2 1 1 10 ⟨List.replicate 80 2 ++ [6], []⟩ =
      some (Except.ok [⟨List.replicate 80 2 ++ [2], []⟩, ⟨List.replicate 80 2 ++ [4], []⟩]) ∧
    gafAux 1 1 1 11 ⟨List.replicate 80 2 ++ [6], []⟩ = some (Except.error ()) := by
  exact ⟨rfl, rfl⟩

/-- Claim C7, amended: the recursion guard is `depth > 10`, so guesses are
made at depths 0 through 10 — up to 11 nested guesses.  (a) The search
returns `Err(())` exactly when `solve_until_stuck` leaves the branch stuck
and the branch's depth exceeds `RECURSION_LIMIT = 10`; in particular a
child's `Err` never propagates to the parent.  (b) A parent treats erroring
children as contributing no solutions: if every forked child returns
`Err(())`, the parent returns `Ok` with the empty solution list. -/
theorem claim_C7 (fuel fuelW fuelP depth : Nat) (p : Puzzle) :
    (gafAux (fuel+1) fuelW fuelP depth p = some (Except.error ()) ↔
      (∃ p', p.solveUntilStuck fuelW fuelP = some (p', false)) ∧ depth > RECURSION_LIMIT) ∧
    (∀ p' gi, p.solveUntilStuck fuelW fuelP = some (p', false) →
      depth ≤ RECURSION_LIMIT → guessIndex p' = some gi →
      (∀ v ∈ bitsList (bget p'.board gi),
        gafAux fuel fuelW fuelP (depth+1) (gafChild p' gi v) = some (Except.error ())) →
      gafAux (fuel+1) fuelW fuelP depth p = some (Except.ok [])) := by
  constructor
  · cases hS : p.solveUntilStuck fuelW fuelP with
    | none =>
      simp only [gafAux, hS]
      constructor
      · intro h; exact Option.noConfusion h
      · rintro ⟨⟨p', hp'⟩, -⟩; exact Option.noConfusion hp'
    | some pr =>
      obtain ⟨p', solved⟩ := pr
      cases solved with
      | true =>
        simp only [gafAux, hS]
        constructor
        · intro h; exact Except.noConfusion (Option.some.inj h)
        · rintro ⟨⟨p'', hp''⟩, -⟩
          exact Bool.noConfusion (congrArg Prod.snd (Option.some.inj hp''))
      | false =>
        by_cases hd : depth > RECURSION_LIMIT
        · simp only [gafAux, hS, if_pos hd]
          constructor
          · intro _; exact ⟨⟨p', rfl⟩, hd⟩
          · intro _; trivial
        · simp only [gafAux, hS, if_neg hd]
          constructor
          · intro h
            exfalso
            cases hgi : guessIndex p' with
            | none =>
              simp only [hgi] at h
              exact Option.noConfusion h
            | some gi =>
              simp only [hgi] at h
              split at h
              · exact Option.noConfusion h
              · exact Except.noConfusion (Option.some.inj h)
          · rintro ⟨-, hd'⟩
            exact absurd hd' hd
  · intro p' gi hS hd hgi hall
    simp only [gafAux, hS, if_neg (Nat.not_lt.mpr hd), hgi]
    generalize hL : bitsList (bget p'.board gi) = L
    rw [hL] at hall
    clear hL
    revert hall
    induction L with
    | nil => intro _; rfl
    | cons v vs ih =>
      intro hall
      rw [List.foldl_cons]
      have hv := hall v (List.mem_cons_self v vs)
      simp only [hv]
      exact ih (fun w hw => hall w (List.mem_cons_of_mem v hw))

/-- Witness for the amended C7 on the stuck two-free-cell puzzle: at depth
11 the branch errors (conjunct (a)); at depth 10 both children error at
depth 11 and the parent returns `Ok []` (conjunct (b)). -/
theorem claim_C7_witness :
    gafAux 1 1 1 11 ⟨List.replicate 79 2 ++ [6, 6], []⟩ = some (Except.error ()) ∧
    gafAux 2 1 1 10 ⟨List.replicate 79 2 ++ [6, 6], []⟩ = some (Except.ok []) := by
  constructor
  · exact (claim_C7 0 1 1 11 ⟨List.replicate 79 2 ++ [6, 6], []⟩).1.mpr
      ⟨⟨⟨List.replicate 79 2 ++ [6, 6], []⟩, by decide⟩, by decide⟩
  · exact (claim_C7 1 1 1 10 ⟨List.replicate 79 2 ++ [6, 6], []⟩).2
      ⟨List.replicate 79 2 ++ [6, 6], []⟩ 80 (by decide) (by decide) (by decide) (by decide)

end KS
